import Mathlib

/-!
Verification of the byte-range cache and read orchestration of `h5coro`
(`src/h5coro/h5coro.py`), as a shallow embedding in Lean.

The embedding models:
* the `H5Coro.ioRequest` byte-range cache (caching / prefetch / direct modes),
  with the backend driver as a pure function from absolute offsets to byte
  values and the cache as a partial map from line-start offsets to line buffers;
* the `H5Coro.readDatasets` request normalization and path deduplication;
* the `H5Coro.listGroup` metadata-table prefix filter, its error handling, and
  the `inspectThread` task-boundary error capture.

Machine integers are modelled as `Nat`; the 64-bit cache-line mask
`0xFFFFFFFFFFFFFFFF - (cacheLineSize-1)` is applied with `Nat.land` exactly as
in the source.  Python `while` loops are modelled with an explicit fuel
argument that is always sufficient under the side conditions of the theorems.
-/

namespace H5

/-- Source `driver.read(offset, length)`: the backend driver returns exactly `length`
bytes starting at absolute offset `offset`; the driver is deterministic and is
modelled by the pure byte function `drv`. -/
def driverRead (drv : Nat → Nat) (offset len : Nat) : List Nat :=
  (List.range len).map (fun i => drv (offset + i))

/-- Python slice `buf[a:b]` for `a ≤ b` (indices past the end are clamped). -/
def pySlice (buf : List Nat) (a b : Nat) : List Nat :=
  (buf.drop a).take (b - a)

/-- The construction-time configuration of an `H5Coro` container handle that
`ioRequest` reads: the driver, `self.baseAddress` and `self.cacheLineSize`. -/
structure Config where
  drv : Nat → Nat
  baseAddress : Nat
  cacheLineSize : Nat

/-- Source `self.cacheLineMask = (0xFFFFFFFFFFFFFFFF - (cacheLineSize-1))`. -/
def Config.cacheLineMask (cfg : Config) : Nat :=
  0xFFFFFFFFFFFFFFFF - (cfg.cacheLineSize - 1)

/-- The mutable io state of an `H5Coro` handle: `self.cache` (a dict from
line-aligned absolute offsets to line buffers) together with the history of
`self.driver.read(offset, length)` calls, newest last. -/
structure IoState where
  cache : Nat → Option (List Nat)
  log : List (Nat × Nat)

/-- The state of a freshly constructed handle: empty cache, no driver reads. -/
def initState : IoState :=
  ⟨fun _ => none, []⟩

/-- Source `cache_line = (pos + self.baseAddress) & self.cacheLineMask`. -/
def lineOf (cfg : Config) (pos : Nat) : Nat :=
  (pos + cfg.baseAddress) &&& cfg.cacheLineMask

/-- Source `start_index = (pos + self.baseAddress) - cache_line`. -/
def startOf (cfg : Config) (pos : Nat) : Nat :=
  (pos + cfg.baseAddress) - lineOf cfg pos

/-- Source `stop_index = min(start_index + data_to_read, self.cacheLineSize)`. -/
def stopOf (cfg : Config) (pos toRead : Nat) : Nat :=
  min (startOf cfg pos + toRead) cfg.cacheLineSize

/-- Source `data_read = stop_index - start_index`. -/
def dReadOf (cfg : Config) (pos toRead : Nat) : Nat :=
  stopOf cfg pos toRead - startOf cfg pos

/-- The state after `self.cache[cache_line] = memoryview(self.driver.read(cache_line,
self.cacheLineSize))`: the fetched line is inserted and the driver call recorded. -/
def missState (cfg : Config) (line : Nat) (st : IoState) : IoState :=
  ⟨fun x => if x = line then some (driverRead cfg.drv line cfg.cacheLineSize) else st.cache x,
   st.log ++ [(line, cfg.cacheLineSize)]⟩

/-- One iteration step plus recursion of the `while data_to_read > 0` loop of
the caching branch of `ioRequest`.  On a hit the cached line buffer is sliced;
on a miss the line is fetched, inserted, and the just-inserted buffer sliced
(`self.cache[cache_line][start_index:stop_index]`).  `fuel` bounds the number
of iterations; `size` iterations always suffice, since each iteration reads at
least one byte whenever the addresses involved fit in 64 bits. -/
def cachedLoop (cfg : Config) : Nat → Nat → Nat → IoState → List (List Nat) × IoState
  | _, _, 0, st => ([], st)
  | 0, _, _ + 1, st => ([], st)
  | fuel + 1, pos, toRead + 1, st =>
      match st.cache (lineOf cfg pos) with
      | some b =>
          let rest := cachedLoop cfg fuel (pos + dReadOf cfg pos (toRead + 1))
                        (toRead + 1 - dReadOf cfg pos (toRead + 1)) st
          (pySlice b (startOf cfg pos) (stopOf cfg pos (toRead + 1)) :: rest.1, rest.2)
      | none =>
          let rest := cachedLoop cfg fuel (pos + dReadOf cfg pos (toRead + 1))
                        (toRead + 1 - dReadOf cfg pos (toRead + 1))
                        (missState cfg (lineOf cfg pos) st)
          (pySlice (driverRead cfg.drv (lineOf cfg pos) cfg.cacheLineSize)
              (startOf cfg pos) (stopOf cfg pos (toRead + 1)) :: rest.1, rest.2)

/-- The `while data_index < block_size` loop of the prefetch branch: insert
each `cacheLineSize`-byte slice of the fetched block into the cache.  The
arguments track `cache_line`, `data_index` and the loop's fuel. -/
def prefetchLoop (cfg : Config) :
    Nat → Nat → Nat → Nat → List Nat → (Nat → Option (List Nat)) → Nat → Option (List Nat)
  | 0, _, _, _, _, cache => cache
  | fuel + 1, cacheLine, dataIndex, blockSize, block, cache =>
      if dataIndex < blockSize then
        prefetchLoop cfg fuel (cacheLine + cfg.cacheLineSize) (dataIndex + cfg.cacheLineSize)
          blockSize block
          (fun x => if x = cacheLine
                    then some (pySlice block dataIndex (dataIndex + cfg.cacheLineSize))
                    else cache x)
      else cache

/-- Source `H5Coro.ioRequest(pos, size, caching, prefetch)`.  Returns the bytes given
to the caller (`none` on the prefetch branch, which returns no data) and the
updated state.  The source's `return data_blocks[0] if len(data_blocks) == 1
else b''.join(data_blocks)` is modelled uniformly as the flattening of the
slices, which is byte-identical in both cases. -/
def ioRequest (cfg : Config) (pos size : Nat) (caching prefetch : Bool) (st : IoState) :
    Option (List Nat) × IoState :=
  if caching then
    let r := cachedLoop cfg size pos size st
    (some r.1.flatten, r.2)
  else if prefetch then
    let blockSize := size + ((cfg.cacheLineSize - size % cfg.cacheLineSize) % cfg.cacheLineSize)
    let line := lineOf cfg pos
    let block := driverRead cfg.drv line blockSize
    (none, ⟨prefetchLoop cfg blockSize line 0 blockSize block st.cache,
            st.log ++ [(line, blockSize)]⟩)
  else
    (some (driverRead cfg.drv (pos + cfg.baseAddress) size),
     ⟨st.cache, st.log ++ [(pos + cfg.baseAddress, size)]⟩)

/-- Run one `ioRequest` call (given as `(pos, size, caching, prefetch)`) for
its state effect. -/
def runOp (cfg : Config) (st : IoState) (op : Nat × Nat × Bool × Bool) : IoState :=
  (ioRequest cfg op.1 op.2.1 op.2.2.1 op.2.2.2 st).2

/-- Run a sequence of `ioRequest` calls from a starting state. -/
def runOps (cfg : Config) (ops : List (Nat × Nat × Bool × Bool)) (st : IoState) : IoState :=
  ops.foldl (runOp cfg) st

/-- Run a sequence of cached reads (`caching=true, prefetch=false`). -/
def runCachedReads (cfg : Config) (reads : List (Nat × Nat)) (st : IoState) : IoState :=
  reads.foldl (fun st pr => (ioRequest cfg pr.1 pr.2 true false st).2) st

/-- The largest multiple of `L` that is at most `x`. -/
def alignDown (L x : Nat) : Nat :=
  x - x % L

/-- The number of cache lines of size `L` spanned by the byte range
`[A, A + n)`, i.e. `⌈(A mod L + n) / L⌉`. -/
def numLines (L A n : Nat) : Nat :=
  if n = 0 then 0 else (A % L + n + (L - 1)) / L

/-- Every line buffer present in the cache is the driver's content for the
line starting at its (line-aligned) key. -/
def CacheWF (cfg : Config) (st : IoState) : Prop :=
  ∀ x v, st.cache x = some v →
    x % cfg.cacheLineSize = 0 ∧ v = driverRead cfg.drv x cfg.cacheLineSize

/-- The rounded-up block length fetched by the prefetch branch. -/
def blockSizeOf (cfg : Config) (size : Nat) : Nat :=
  size + ((cfg.cacheLineSize - size % cfg.cacheLineSize) % cfg.cacheLineSize)

/-! ### Claim theorems about the byte-range cache -/

/-- A small concrete configuration used for witnesses: identity driver,
`baseAddress = 1`, `cacheLineSize = 4 = 2^2`. -/
def cfgEx : Config :=
  ⟨fun n => n, 1, 4⟩

/-! ### `readDatasets`: request normalization and per-path deduplication -/

/-- Modelled from the spec: `H5Dataset.ALL_ROWS`, the dataset parser's
"whole column / all rows" sentinel used when a request is given as a bare
path string; its concrete value lives in the (external) dataset-parsing
collaborator and is opaque to this core. -/
def ALL_ROWS : Int := -1

/-- One normalized dataset request spec, as stored in `dataset_table`:
`{"dataset": ..., "startrow": ..., "numrows": ...}`. -/
structure DatasetSpec where
  dataset : String
  startrow : Int
  numrows : Int
deriving DecidableEq

/-- A caller-supplied request: either a bare path string or a structured
spec dictionary. -/
inductive DatasetReq
  | str (s : String)
  | spec (d : DatasetSpec)
deriving DecidableEq

/-- Normalization performed by the `readDatasets` loop body: a string becomes
a whole-column read (`startrow 0`, all rows); a structured spec is kept. -/
def normalizeReq : DatasetReq → DatasetSpec
  | .str s => ⟨s, 0, ALL_ROWS⟩
  | .spec d => d

/-- Python dict assignment `table[k] = v`: replace the value at an existing
key in place (keeping its position), otherwise append the new entry. -/
def dictInsert : List (String × DatasetSpec) → String → DatasetSpec →
    List (String × DatasetSpec)
  | [], k, v => [(k, v)]
  | e :: t, k, v => if e.1 = k then (k, v) :: t else e :: dictInsert t k v

/-- Python dict lookup `table[k]` (as an `Option`). -/
def tableGet (t : List (String × DatasetSpec)) (p : String) : Option DatasetSpec :=
  (t.find? (fun e => e.1 == p)).map Prod.snd

/-- The `dataset_table` built by `readDatasets` from the supplied request
list: keyed by `dataset["dataset"]`, later entries overwrite earlier ones. -/
def buildDatasetTable (datasets : List DatasetReq) : List (String × DatasetSpec) :=
  datasets.foldl (fun t r => dictInsert t (normalizeReq r).dataset (normalizeReq r)) []

/-- Source `H5Coro.readDatasets(datasets, ...)`: `none` when no datasets are
supplied; otherwise one submitted work task per `dataset_table` value
(in order) and the promise's result keys (`dataset_table.keys()`). -/
def readDatasets (datasets : List DatasetReq) :
    Option (List DatasetSpec × List String) :=
  if datasets.length ≤ 0 then none
  else
    some ((buildDatasetTable datasets).map Prod.snd,
          (buildDatasetTable datasets).map Prod.fst)

/-! ### `listGroup`: metadata-table prefix filtering and error handling -/

/-- Whether `haystack` begins with `needle` (Python `str.startswith`). -/
def charsStarts : List Char → List Char → Bool
  | _, [] => true
  | [], _ :: _ => false
  | c :: cs, p :: ps => c == p && charsStarts cs ps

/-- Scanning worker for Python `str.split(sep)` with a non-empty separator:
left-to-right, non-overlapping occurrences; `acc` is the current token,
reversed.  `fuel ≥ length of the remaining text` always suffices. -/
def pySplitAux (sep : List Char) : Nat → List Char → List Char → List (List Char)
  | _, [], acc => [acc.reverse]
  | 0, s, acc => [acc.reverse ++ s]
  | fuel + 1, c :: rest, acc =>
      if charsStarts (c :: rest) sep then
        acc.reverse :: pySplitAux sep fuel ((c :: rest).drop sep.length) []
      else
        pySplitAux sep fuel rest (c :: acc)

/-- Python `s.split(sep)` for a non-empty separator. -/
def pySplit (s sep : String) : List String :=
  (pySplitAux sep.data s.data.length s.data []).map String.mk

/-- Source `element = path.split(group)[1]` from the `listGroup` filter loop. -/
def elementAfter (path g : String) : String :=
  (pySplit path g).getD 1 ""

/-- Source `element.split('/')[0]`. -/
def firstSegment (s : String) : String :=
  (pySplit s "/").headD ""

/-- Python `set.add`, with the set modelled as an insertion-ordered
duplicate-free list. -/
def setAdd (l : List String) (x : String) : List String :=
  if x ∈ l then l else l ++ [x]

/-- The `for path in paths` filter loop of `listGroup` (source lines
179-190), run over the metadata table (a map from path to its record's
`isattribute` flag) with the already-massaged group string `g`: returns the
accumulated `(variables, attributes)` name sets. -/
def listGroupFilter (table : List (String × Bool)) (g : String) :
    List String × List String :=
  table.foldl
    (fun acc entry =>
      if charsStarts entry.1.data g.data then
        let element := elementAfter entry.1 g
        if element.length > 0 then
          let e1 := if element.data.headD ' ' = '/'
                    then String.mk (element.data.drop 1) else element
          let e2 := firstSegment e1
          if entry.2 then (acc.1, setAdd acc.2 e2) else (setAdd acc.1 e2, acc.2)
        else acc
      else acc)
    ([], [])

/-- The Python exceptions that `listGroup`'s control flow distinguishes:
`RuntimeError` (raised by validation and by the dataset parser, and caught by
`listGroup`'s own handler), and the `IndexError`/`ValueError` that the group
massaging can produce on degenerate inputs (not caught). -/
inductive PyErr
  | runtimeError (msg : String)
  | indexError
  | valueError
deriving DecidableEq

/-- Source `inspectThread(resourceObject, variable, w_attr)`: calls the (external)
`inspectVariable` — modelled as an oracle returning either a
`(metadata, attributes)` pair or a `RuntimeError` — and converts a failure
into the empty result `(variable, {}, {})` at the task boundary. -/
def inspectThread
    (inspect : String → Except String (List (String × String) × List (String × String)))
    (v : String) :
    String × (List (String × String) × List (String × String)) :=
  match inspect v with
  | .ok r => (v, r)
  | .error _ => (v, ([], []))

/-- The first component `listGroup` returns: a bare name set, or (with
`w_inspect`) the map from inspected variable path to its
`{metadata, attributes}`. -/
inductive VarsOut
  | names (vs : List String)
  | inspected (m : List (String × (List (String × String) × List (String × String))))
deriving DecidableEq

/-- The second component `listGroup` returns: the attribute name set, or —
when the `w_inspect` loop ran — the `attributes` dict of the last completed
inspect task, which the loop variable of line 198 rebinds over the set. -/
inductive AttrsOut
  | names (vs : List String)
  | clobbered (a : List (String × String))
deriving DecidableEq

/-- Source `group[1:]` / `group[:-1]` massaging of `listGroup` (source lines
172-175), for a non-empty `group`: strip one leading and one trailing slash;
`none` models the uncaught `IndexError` of `group[-1]` when the group is a
single slash. -/
def massageGroup (group : String) : Option String :=
  let g1 := if group.data.headD ' ' = '/' then String.mk (group.data.drop 1) else group
  if g1.data.isEmpty then none
  else some (if g1.data.getLast? = some '/' then String.mk (g1.data.dropLast) else g1)

/-- The `try` block of `H5Coro.listGroup(group, w_attr, w_inspect)`.
`table` is the metadata table (path, `isattribute`) after the forced parse of
the group; `parseFails` tells whether that `H5Dataset` parse raises
`RuntimeError`; `inspect` is the `inspectVariable` oracle used by the
`w_inspect` fan-out (the fan-out's `as_completed` completion order is
modelled as submission order).  Errors are returned as `Except.error`. -/
def listGroupBody (table : List (String × Bool)) (parseFails : Bool)
    (inspect : String → Except String (List (String × String) × List (String × String)))
    (group : String) (w_inspect : Bool) :
    Except PyErr (VarsOut × AttrsOut) :=
  if group.length ≤ 0 then .error (.runtimeError "argument must not be empty")
  else if parseFails then .error (.runtimeError "parse failure")
  else
    match massageGroup group with
    | none => .error .indexError
    | some g =>
      if g.length = 0 ∧ table.length ≠ 0 then .error .valueError
      else
        let va := listGroupFilter table g
        if w_inspect ∧ va.1.length > 0 then
          let results := va.1.map (fun v => inspectThread inspect ("/" ++ g ++ "/" ++ v))
          .ok (.inspected results,
               .clobbered ((results.getLast?.map (fun r => r.2.2)).getD []))
        else .ok (.names va.1, .names va.2)

/-- Source `H5Coro.listGroup`: the `try` block wrapped in the
`except RuntimeError` handler, which logs the error and falls through to
`return variables, attributes` — the still-empty sets.  Non-`RuntimeError`
exceptions escape to the caller (`Except.error`). -/
def listGroup (table : List (String × Bool)) (parseFails : Bool)
    (inspect : String → Except String (List (String × String) × List (String × String)))
    (group : String) (w_inspect : Bool) :
    Except PyErr (VarsOut × AttrsOut) :=
  match listGroupBody table parseFails inspect group w_inspect with
  | .error (.runtimeError _) => .ok (.names [], .names [])
  | .error e => .error e
  | .ok r => .ok r

deriving instance DecidableEq for Except

/-! ### Arithmetic about the cache-line mask -/

theorem driverRead_length (drv : Nat → Nat) (o n : Nat) :
    (driverRead drv o n).length = n := by
  simp [driverRead]

theorem driverRead_append (drv : Nat → Nat) (o m n : Nat) :
    driverRead drv o (m + n) = driverRead drv o m ++ driverRead drv (o + m) n := by
  unfold driverRead
  rw [List.range_add, List.map_append, List.map_map]
  congr 1
  apply List.map_congr_left
  intro i _
  simp only [Function.comp_apply]
  congr 1
  omega

theorem pySlice_driverRead (drv : Nat → Nat) (o len a b : Nat)
    (hab : a ≤ b) (hb : b ≤ len) :
    pySlice (driverRead drv o len) a b = driverRead drv (o + a) (b - a) := by
  apply List.ext_getElem
  · simp [pySlice, driverRead]
    omega
  · intro i h1 h2
    simp only [pySlice, driverRead, List.getElem_take, List.getElem_drop, List.getElem_map,
      List.getElem_range]
    congr 1
    omega

/-- With line size `2^k`, the source's 64-bit mask is `2^64 - 2^k`. -/
theorem cacheLineMask_eq (cfg : Config) (k : Nat)
    (hL : cfg.cacheLineSize = 2 ^ k) (hk : k ≤ 64) :
    cfg.cacheLineMask = 2 ^ 64 - 2 ^ k := by
  have h1 : 1 ≤ 2 ^ k := Nat.one_le_two_pow
  have h2 : 2 ^ k ≤ 2 ^ 64 := Nat.pow_le_pow_right (by norm_num) hk
  simp only [Config.cacheLineMask, hL]
  omega

theorem two_pow_sub_two_pow_eq (w k : Nat) (hk : k ≤ w) :
    2 ^ w - 2 ^ k = 2 ^ k * (2 ^ (w - k) - 1) := by
  have hb : 2 ^ k * 2 ^ (w - k) = 2 ^ w := by
    rw [← pow_add]
    congr 1
    omega
  rw [Nat.mul_sub_left_distrib, hb, Nat.mul_one]

/-- Masking with `2^w - 2^k` rounds a `w`-bit value down to a multiple of
`2^k`. -/
theorem and_high_mask (w k A : Nat) (hk : k ≤ w) (hA : A < 2 ^ w) :
    A &&& (2 ^ w - 2 ^ k) = 2 ^ k * (A / 2 ^ k) := by
  apply Nat.eq_of_testBit_eq
  intro i
  rw [two_pow_sub_two_pow_eq w k hk]
  have hdiv : 2 ^ k * (A / 2 ^ k) = 2 ^ k * ((A >>> k)) := by
    rw [Nat.shiftRight_eq_div_pow]
  rw [hdiv, Nat.testBit_and, Nat.testBit_mul_pow_two, Nat.testBit_mul_pow_two]
  by_cases hik : k ≤ i
  · by_cases hiw : i < w
    · have h1 : (2 ^ (w - k) - 1).testBit (i - k) = true := by
        rw [Nat.testBit_two_pow_sub_one]
        simp only [decide_eq_true_eq]
        omega
      have h2 : (A >>> k).testBit (i - k) = A.testBit i := by
        rw [Nat.testBit_shiftRight]
        congr 1
        omega
      simp [h1, h2, hik, Bool.and_comm]
    · have h1 : A.testBit i = false := by
        apply Nat.testBit_lt_two_pow
        exact lt_of_lt_of_le hA (Nat.pow_le_pow_right (by norm_num) (by omega))
      have h2 : (A >>> k).testBit (i - k) = A.testBit i := by
        rw [Nat.testBit_shiftRight]
        congr 1
        omega
      simp [h1, h2]
  · simp [hik]

/-- The masked address is `A - A % 2^k` for any `A < 2^64`. -/
theorem land_mask_align (cfg : Config) (k A : Nat)
    (hL : cfg.cacheLineSize = 2 ^ k) (hk : k ≤ 64) (hA : A < 2 ^ 64) :
    A &&& cfg.cacheLineMask = alignDown cfg.cacheLineSize A := by
  rw [cacheLineMask_eq cfg k hL hk, and_high_mask 64 k A hk hA]
  have h := Nat.div_add_mod A (2 ^ k)
  simp only [alignDown, hL]
  omega

/-- The masked address is a multiple of the line size, for every `A`
(no 64-bit bound needed). -/
theorem land_mask_mod (cfg : Config) (k A : Nat)
    (hL : cfg.cacheLineSize = 2 ^ k) (hk : k ≤ 64) :
    (A &&& cfg.cacheLineMask) % cfg.cacheLineSize = 0 := by
  rw [cacheLineMask_eq cfg k hL hk, hL, ← Nat.and_pow_two_sub_one_eq_mod, Nat.and_assoc]
  have hz : (2 ^ 64 - 2 ^ k) &&& (2 ^ k - 1) = 0 := by
    apply Nat.eq_of_testBit_eq
    intro i
    rw [Nat.testBit_and, two_pow_sub_two_pow_eq 64 k hk, Nat.testBit_mul_pow_two,
      Nat.testBit_two_pow_sub_one]
    rcases Nat.lt_or_ge i k with h | h
    · have h1 : decide (i ≥ k) = false := by simp only [decide_eq_false_iff_not]; omega
      simp [h1]
    · have h2 : decide (i < k) = false := by simp only [decide_eq_false_iff_not]; omega
      simp [h2]
  rw [hz, Nat.and_zero]

theorem alignDown_aligned (L x : Nat) : alignDown L x % L = 0 := by
  have h := Nat.div_add_mod x L
  have h2 : alignDown L x = L * (x / L) := by
    simp only [alignDown]; omega
  rw [h2, Nat.mul_mod_right]

theorem numLines_zero (L A : Nat) : numLines L A 0 = 0 := rfl

theorem numLines_step (L A n d : Nat) (hL : 0 < L) (hn : 0 < n)
    (hd : d = min n (L - A % L)) :
    numLines L A n = 1 + numLines L (A + d) (n - d) := by
  have hr : A % L < L := Nat.mod_lt A hL
  have hrA : A % L ≤ A := Nat.mod_le A L
  by_cases h0 : n - d = 0
  · have hd' : d = n := by omega
    have hnL : A % L + n ≤ L := by omega
    unfold numLines
    rw [if_neg (show ¬ n = 0 by omega), if_pos h0]
    have h1 : (A % L + n + (L - 1)) / L = 1 := by
      apply Nat.div_eq_of_lt_le <;> omega
    omega
  · have hd' : d = L - A % L := by omega
    have hmod : (A + d) % L = 0 := by
      have h1 : A + d = (A - A % L) + L := by omega
      rw [h1, Nat.add_mod_right]
      exact alignDown_aligned L A
    unfold numLines
    rw [if_neg (show ¬ n = 0 by omega), if_neg h0, hmod]
    have h2 : A % L + n + (L - 1) = (0 + (n - d) + (L - 1)) + L := by omega
    rw [h2, Nat.add_div_right _ hL]
    omega

theorem alignDown_le (L x : Nat) : alignDown L x ≤ x := by
  simp only [alignDown]; omega

theorem alignDown_mono (L a b : Nat) (h : a ≤ b) : alignDown L a ≤ alignDown L b := by
  rcases Nat.eq_zero_or_pos L with hL | hL
  · simp only [alignDown, hL, Nat.mod_zero]; omega
  · have h2 : alignDown L a = L * (a / L) := by
      have := Nat.div_add_mod a L; simp only [alignDown]; omega
    have h3 : alignDown L b = L * (b / L) := by
      have := Nat.div_add_mod b L; simp only [alignDown]; omega
    rw [h2, h3]
    exact Nat.mul_le_mul_left L (Nat.div_le_div_right h)

theorem le_alignDown_of_aligned (L y x : Nat) (hy : y % L = 0) (hyx : y ≤ x) :
    y ≤ alignDown L x := by
  rcases Nat.eq_zero_or_pos L with hL | hL
  · subst hL; simp only [alignDown, Nat.mod_zero]; omega
  · have h2 : alignDown L x = L * (x / L) := by
      have := Nat.div_add_mod x L; simp only [alignDown]; omega
    have h3 : y = L * (y / L) := by
      have := Nat.div_add_mod y L; omega
    rw [h2, h3]
    exact Nat.mul_le_mul_left L (Nat.div_le_div_right hyx)

/-! ### The caching branch of `ioRequest` -/

theorem cachedLoop_hit_fst (cfg : Config) (f pos t : Nat) (st : IoState) (b : List Nat)
    (h : st.cache (lineOf cfg pos) = some b) :
    (cachedLoop cfg (f + 1) pos (t + 1) st).1
      = pySlice b (startOf cfg pos) (stopOf cfg pos (t + 1))
          :: (cachedLoop cfg f (pos + dReadOf cfg pos (t + 1))
                (t + 1 - dReadOf cfg pos (t + 1)) st).1 := by
  simp [cachedLoop, h]

theorem cachedLoop_hit_snd (cfg : Config) (f pos t : Nat) (st : IoState) (b : List Nat)
    (h : st.cache (lineOf cfg pos) = some b) :
    (cachedLoop cfg (f + 1) pos (t + 1) st).2
      = (cachedLoop cfg f (pos + dReadOf cfg pos (t + 1))
          (t + 1 - dReadOf cfg pos (t + 1)) st).2 := by
  simp [cachedLoop, h]

theorem cachedLoop_miss_fst (cfg : Config) (f pos t : Nat) (st : IoState)
    (h : st.cache (lineOf cfg pos) = none) :
    (cachedLoop cfg (f + 1) pos (t + 1) st).1
      = pySlice (driverRead cfg.drv (lineOf cfg pos) cfg.cacheLineSize)
          (startOf cfg pos) (stopOf cfg pos (t + 1))
          :: (cachedLoop cfg f (pos + dReadOf cfg pos (t + 1))
                (t + 1 - dReadOf cfg pos (t + 1)) (missState cfg (lineOf cfg pos) st)).1 := by
  simp [cachedLoop, h]

theorem cachedLoop_miss_snd (cfg : Config) (f pos t : Nat) (st : IoState)
    (h : st.cache (lineOf cfg pos) = none) :
    (cachedLoop cfg (f + 1) pos (t + 1) st).2
      = (cachedLoop cfg f (pos + dReadOf cfg pos (t + 1))
          (t + 1 - dReadOf cfg pos (t + 1)) (missState cfg (lineOf cfg pos) st)).2 := by
  simp [cachedLoop, h]

theorem lineOf_eq (cfg : Config) (k pos : Nat)
    (hL : cfg.cacheLineSize = 2 ^ k) (hk : k ≤ 64)
    (hpos : pos + cfg.baseAddress < 2 ^ 64) :
    lineOf cfg pos = alignDown cfg.cacheLineSize (pos + cfg.baseAddress) :=
  land_mask_align cfg k _ hL hk hpos

theorem lineOf_mod (cfg : Config) (k pos : Nat)
    (hL : cfg.cacheLineSize = 2 ^ k) (hk : k ≤ 64) :
    lineOf cfg pos % cfg.cacheLineSize = 0 :=
  land_mask_mod cfg k _ hL hk

theorem startOf_eq (cfg : Config) (k pos : Nat)
    (hL : cfg.cacheLineSize = 2 ^ k) (hk : k ≤ 64)
    (hpos : pos + cfg.baseAddress < 2 ^ 64) :
    startOf cfg pos = (pos + cfg.baseAddress) % cfg.cacheLineSize := by
  have h := lineOf_eq cfg k pos hL hk hpos
  have h2 : (pos + cfg.baseAddress) % cfg.cacheLineSize ≤ pos + cfg.baseAddress :=
    Nat.mod_le _ _
  simp only [startOf, h, alignDown]
  omega

theorem dReadOf_eq (cfg : Config) (k pos n : Nat)
    (hL : cfg.cacheLineSize = 2 ^ k) (hk : k ≤ 64)
    (hpos : pos + cfg.baseAddress < 2 ^ 64) :
    dReadOf cfg pos n
      = min n (cfg.cacheLineSize - (pos + cfg.baseAddress) % cfg.cacheLineSize) := by
  have hLpos : 0 < cfg.cacheLineSize := by
    rw [hL]; exact Nat.pos_pow_of_pos k (by norm_num)
  have hr : (pos + cfg.baseAddress) % cfg.cacheLineSize < cfg.cacheLineSize :=
    Nat.mod_lt _ hLpos
  simp only [dReadOf, stopOf, startOf_eq cfg k pos hL hk hpos]
  omega

/-- Full characterization of one run of the caching loop from any well-formed
cache state, when the addresses involved fit in 64 bits: the concatenated
slices are exactly the driver's bytes for `[pos+base, pos+base+toRead)`; the
driver is called once per spanned line that was missing from the cache
(`missed`, in increasing order), each call fetching one full line at its
aligned start; and the cache gains exactly the missing lines, each mapped to
the driver's content for it. -/
theorem cachedLoop_spec (cfg : Config) (k : Nat)
    (hL : cfg.cacheLineSize = 2 ^ k) (hk : k ≤ 64) :
    ∀ fuel pos toRead st,
      toRead ≤ fuel →
      pos + cfg.baseAddress + toRead ≤ 2 ^ 64 →
      CacheWF cfg st →
      ∃ missed : List Nat,
        (cachedLoop cfg fuel pos toRead st).1.flatten
            = driverRead cfg.drv (pos + cfg.baseAddress) toRead
        ∧ (cachedLoop cfg fuel pos toRead st).2.log
            = st.log ++ missed.map (fun l => (l, cfg.cacheLineSize))
        ∧ (∀ x, (cachedLoop cfg fuel pos toRead st).2.cache x
            = if x ∈ missed then some (driverRead cfg.drv x cfg.cacheLineSize)
              else st.cache x)
        ∧ missed.length ≤ numLines cfg.cacheLineSize (pos + cfg.baseAddress) toRead
        ∧ (∀ l ∈ missed, l % cfg.cacheLineSize = 0 ∧ st.cache l = none
            ∧ alignDown cfg.cacheLineSize (pos + cfg.baseAddress) ≤ l
            ∧ l < pos + cfg.baseAddress + toRead)
        ∧ missed.Pairwise (· < ·)
        ∧ (∀ l, 0 < toRead → l % cfg.cacheLineSize = 0 →
            pos + cfg.baseAddress < l + cfg.cacheLineSize →
            l < pos + cfg.baseAddress + toRead →
            ((cachedLoop cfg fuel pos toRead st).2.cache l).isSome = true) := by
  have hLpos : 0 < cfg.cacheLineSize := by
    rw [hL]; exact Nat.pos_pow_of_pos k (by norm_num)
  intro fuel
  induction fuel with
  | zero =>
    intro pos toRead st hf hA hwf
    obtain rfl : toRead = 0 := by omega
    exact ⟨[], by simp [cachedLoop, driverRead, numLines]⟩
  | succ f ih =>
    intro pos toRead st hf hA hwf
    match toRead, hf, hA with
    | 0, hf, hA =>
      exact ⟨[], by simp [cachedLoop, driverRead, numLines]⟩
    | t + 1, hf, hA =>
      have hApos : pos + cfg.baseAddress < 2 ^ 64 := by omega
      have hr : (pos + cfg.baseAddress) % cfg.cacheLineSize < cfg.cacheLineSize :=
        Nat.mod_lt _ hLpos
      have hrA : (pos + cfg.baseAddress) % cfg.cacheLineSize ≤ pos + cfg.baseAddress :=
        Nat.mod_le _ _
      have hline : lineOf cfg pos
          = pos + cfg.baseAddress - (pos + cfg.baseAddress) % cfg.cacheLineSize :=
        lineOf_eq cfg k pos hL hk hApos
      have hlmod : lineOf cfg pos % cfg.cacheLineSize = 0 := lineOf_mod cfg k pos hL hk
      have hstart : startOf cfg pos = (pos + cfg.baseAddress) % cfg.cacheLineSize :=
        startOf_eq cfg k pos hL hk hApos
      have hdval : dReadOf cfg pos (t + 1)
          = min (t + 1) (cfg.cacheLineSize - (pos + cfg.baseAddress) % cfg.cacheLineSize) :=
        dReadOf_eq cfg k pos (t + 1) hL hk hApos
      have hd1 : 1 ≤ dReadOf cfg pos (t + 1) := by omega
      have hd2 : dReadOf cfg pos (t + 1) ≤ t + 1 := by omega
      have hstop1 : startOf cfg pos ≤ stopOf cfg pos (t + 1) := by
        simp only [stopOf]; omega
      have hstop2 : stopOf cfg pos (t + 1) ≤ cfg.cacheLineSize := by
        simp only [stopOf]; omega
      have hdstop : stopOf cfg pos (t + 1) - startOf cfg pos = dReadOf cfg pos (t + 1) := rfl
      have hlinestart : lineOf cfg pos + startOf cfg pos = pos + cfg.baseAddress := by
        rw [hline, hstart]; omega
      -- the number of lines decreases by one after the first iteration
      have hnum : numLines cfg.cacheLineSize (pos + cfg.baseAddress) (t + 1)
          = 1 + numLines cfg.cacheLineSize
              (pos + cfg.baseAddress + dReadOf cfg pos (t + 1))
              (t + 1 - dReadOf cfg pos (t + 1)) := by
        apply numLines_step _ _ _ _ hLpos (by omega)
        omega
      have hA' : pos + dReadOf cfg pos (t + 1) + cfg.baseAddress
          = pos + cfg.baseAddress + dReadOf cfg pos (t + 1) := by omega
      -- the slice of the line buffer taken by the first iteration
      have hslice : pySlice (driverRead cfg.drv (lineOf cfg pos) cfg.cacheLineSize)
            (startOf cfg pos) (stopOf cfg pos (t + 1))
          = driverRead cfg.drv (pos + cfg.baseAddress) (dReadOf cfg pos (t + 1)) := by
        rw [pySlice_driverRead cfg.drv (lineOf cfg pos) cfg.cacheLineSize
            (startOf cfg pos) (stopOf cfg pos (t + 1)) hstop1 hstop2, hdstop, hlinestart]
      -- assembling the two pieces of driver bytes
      have hglue : driverRead cfg.drv (pos + cfg.baseAddress) (dReadOf cfg pos (t + 1))
            ++ driverRead cfg.drv (pos + cfg.baseAddress + dReadOf cfg pos (t + 1))
                 (t + 1 - dReadOf cfg pos (t + 1))
          = driverRead cfg.drv (pos + cfg.baseAddress) (t + 1) := by
        rw [← driverRead_append]
        congr 1
        omega
      rcases hcl : st.cache (lineOf cfg pos) with _ | b
      · -- line not cached: the driver is consulted for a full line
        have hwfM : CacheWF cfg (missState cfg (lineOf cfg pos) st) := by
          intro x v hx
          simp only [missState] at hx
          by_cases hxl : x = lineOf cfg pos
          · rw [if_pos hxl] at hx
            refine ⟨hxl ▸ hlmod, ?_⟩
            cases hx
            rw [hxl]
          · rw [if_neg hxl] at hx
            exact hwf x v hx
        obtain ⟨missedT, IH1, IH2, IH3, IH4, IH5, IH6, IH7⟩ :=
          ih (pos + dReadOf cfg pos (t + 1)) (t + 1 - dReadOf cfg pos (t + 1))
            (missState cfg (lineOf cfg pos) st) (by omega) (by omega) hwfM
        rw [hA'] at IH1 IH4 IH5 IH7
        refine ⟨lineOf cfg pos :: missedT, ?_, ?_, ?_, ?_, ?_, ?_, ?_⟩
        · rw [cachedLoop_miss_fst cfg f pos t st hcl, List.flatten_cons, IH1, hslice, hglue]
        · rw [cachedLoop_miss_snd cfg f pos t st hcl, IH2]
          simp [missState, List.append_assoc]
        · intro x
          rw [cachedLoop_miss_snd cfg f pos t st hcl, IH3 x]
          by_cases hx1 : x ∈ missedT
          · rw [if_pos hx1, if_pos (List.mem_cons_of_mem _ hx1)]
          · rw [if_neg hx1]
            by_cases hx2 : x = lineOf cfg pos
            · subst hx2
              simp [missState]
            · simp [missState, hx2, List.mem_cons, hx1]
        · simp only [List.length_cons, hnum]
          omega
        · intro l hl
          rcases List.mem_cons.mp hl with rfl | hl2
          · refine ⟨hlmod, hcl, ?_, ?_⟩
            · rw [hline]; exact le_refl _
            · rw [hline]; omega
          · obtain ⟨m1, m2, m3, m4⟩ := IH5 l hl2
            have hm2 : st.cache l = none := by
              simp only [missState] at m2
              by_cases hxl : l = lineOf cfg pos
              · rw [if_pos hxl] at m2; cases m2
              · rwa [if_neg hxl] at m2
            refine ⟨m1, hm2, ?_, by omega⟩
            calc alignDown cfg.cacheLineSize (pos + cfg.baseAddress)
                ≤ alignDown cfg.cacheLineSize
                    (pos + cfg.baseAddress + dReadOf cfg pos (t + 1)) :=
                  alignDown_mono _ _ _ (by omega)
              _ ≤ l := m3
        · rw [List.pairwise_cons]
          refine ⟨?_, IH6⟩
          intro l hl2
          have hne : missedT ≠ [] := by
            intro h
            rw [h] at hl2
            exact List.not_mem_nil l hl2
          have hlen : 0 < missedT.length := List.length_pos.mpr hne
          have htr : 1 ≤ t + 1 - dReadOf cfg pos (t + 1) := by
            by_contra h
            have h0 : t + 1 - dReadOf cfg pos (t + 1) = 0 := by omega
            rw [h0, numLines_zero] at IH4
            omega
          have hdfull : dReadOf cfg pos (t + 1)
              = cfg.cacheLineSize - (pos + cfg.baseAddress) % cfg.cacheLineSize := by
            omega
          obtain ⟨m1, m2, m3, m4⟩ := IH5 l hl2
          have halign : alignDown cfg.cacheLineSize
                (pos + cfg.baseAddress + dReadOf cfg pos (t + 1))
              = lineOf cfg pos + cfg.cacheLineSize := by
            have he : pos + cfg.baseAddress + dReadOf cfg pos (t + 1)
                = lineOf cfg pos + cfg.cacheLineSize := by
              rw [hline]; omega
            rw [he]
            have hm : (lineOf cfg pos + cfg.cacheLineSize) % cfg.cacheLineSize = 0 := by
              rw [Nat.add_mod_right]; exact hlmod
            simp only [alignDown, hm]
            omega
          rw [halign] at m3
          omega
        · intro l hpos0 hlmod2 hlo hhi
          rw [cachedLoop_miss_snd cfg f pos t st hcl]
          by_cases hll : l = lineOf cfg pos
          · rw [IH3 l]
            by_cases hml : l ∈ missedT
            · rw [if_pos hml]; rfl
            · rw [if_neg hml]
              subst hll
              simp [missState]
          · have hdl : cfg.cacheLineSize ∣ l := Nat.dvd_of_mod_eq_zero hlmod2
            have hdline : cfg.cacheLineSize ∣ lineOf cfg pos := Nat.dvd_of_mod_eq_zero hlmod
            have hgel : lineOf cfg pos ≤ l := by
              by_contra hcon
              have h1 : cfg.cacheLineSize ∣ (lineOf cfg pos - l) := Nat.dvd_sub' hdline hdl
              have h2 : 0 < lineOf cfg pos - l := by omega
              have h3 := Nat.le_of_dvd h2 h1
              rw [hline] at h3
              omega
            have hge : lineOf cfg pos + cfg.cacheLineSize ≤ l := by
              have h1 : cfg.cacheLineSize ∣ (l - lineOf cfg pos) := Nat.dvd_sub' hdl hdline
              have h2 : 0 < l - lineOf cfg pos := by omega
              have h3 := Nat.le_of_dvd h2 h1
              omega
            rw [hline] at hge
            have htr : 0 < t + 1 - dReadOf cfg pos (t + 1) := by omega
            exact IH7 l htr hlmod2 (by omega) (by omega)
      · -- line already cached: no driver call in this iteration
        obtain ⟨hbmod, hbval⟩ := hwf (lineOf cfg pos) b hcl
        obtain ⟨missedT, IH1, IH2, IH3, IH4, IH5, IH6, IH7⟩ :=
          ih (pos + dReadOf cfg pos (t + 1)) (t + 1 - dReadOf cfg pos (t + 1))
            st (by omega) (by omega) hwf
        rw [hA'] at IH1 IH4 IH5 IH7
        refine ⟨missedT, ?_, ?_, ?_, ?_, ?_, IH6, ?_⟩
        · rw [cachedLoop_hit_fst cfg f pos t st b hcl, List.flatten_cons, IH1, hbval,
            hslice, hglue]
        · rw [cachedLoop_hit_snd cfg f pos t st b hcl, IH2]
        · intro x
          rw [cachedLoop_hit_snd cfg f pos t st b hcl, IH3 x]
        · rw [hnum]
          omega
        · intro l hl
          obtain ⟨m1, m2, m3, m4⟩ := IH5 l hl
          refine ⟨m1, m2, ?_, by omega⟩
          calc alignDown cfg.cacheLineSize (pos + cfg.baseAddress)
              ≤ alignDown cfg.cacheLineSize
                  (pos + cfg.baseAddress + dReadOf cfg pos (t + 1)) :=
                alignDown_mono _ _ _ (by omega)
            _ ≤ l := m3
        · intro l hpos0 hlmod2 hlo hhi
          rw [cachedLoop_hit_snd cfg f pos t st b hcl]
          by_cases hll : l = lineOf cfg pos
          · rw [IH3 l]
            by_cases hml : l ∈ missedT
            · rw [if_pos hml]; rfl
            · rw [if_neg hml]
              subst hll
              rw [hcl]
              rfl
          · have hdl : cfg.cacheLineSize ∣ l := Nat.dvd_of_mod_eq_zero hlmod2
            have hdline : cfg.cacheLineSize ∣ lineOf cfg pos := Nat.dvd_of_mod_eq_zero hlmod
            have hgel : lineOf cfg pos ≤ l := by
              by_contra hcon
              have h1 : cfg.cacheLineSize ∣ (lineOf cfg pos - l) := Nat.dvd_sub' hdline hdl
              have h2 : 0 < lineOf cfg pos - l := by omega
              have h3 := Nat.le_of_dvd h2 h1
              rw [hline] at h3
              omega
            have hge : lineOf cfg pos + cfg.cacheLineSize ≤ l := by
              have h1 : cfg.cacheLineSize ∣ (l - lineOf cfg pos) := Nat.dvd_sub' hdl hdline
              have h2 : 0 < l - lineOf cfg pos := by omega
              have h3 := Nat.le_of_dvd h2 h1
              omega
            rw [hline] at hge
            have htr : 0 < t + 1 - dReadOf cfg pos (t + 1) := by omega
            exact IH7 l htr hlmod2 (by omega) (by omega)

theorem missState_wf (cfg : Config) (k line : Nat) (st : IoState)
    (hL : cfg.cacheLineSize = 2 ^ k) (hk : k ≤ 64)
    (hmod : line % cfg.cacheLineSize = 0) (hwf : CacheWF cfg st) :
    CacheWF cfg (missState cfg line st) := by
  intro x v hx
  simp only [missState] at hx
  by_cases hxl : x = line
  · rw [if_pos hxl] at hx
    refine ⟨hxl ▸ hmod, ?_⟩
    cases hx
    rw [hxl]
  · rw [if_neg hxl] at hx
    exact hwf x v hx

/-- The caching loop never evicts or overwrites: present entries survive, and
well-formedness of the cache is preserved, with no side condition on the
addresses. -/
theorem cachedLoop_wf (cfg : Config) (k : Nat)
    (hL : cfg.cacheLineSize = 2 ^ k) (hk : k ≤ 64) :
    ∀ fuel pos toRead st, CacheWF cfg st →
      CacheWF cfg (cachedLoop cfg fuel pos toRead st).2
      ∧ (∀ x v, st.cache x = some v → (cachedLoop cfg fuel pos toRead st).2.cache x = some v) := by
  intro fuel
  induction fuel with
  | zero =>
    intro pos toRead st hwf
    cases toRead with
    | zero =>
      refine ⟨by simpa [cachedLoop] using hwf, ?_⟩
      intro x v h
      simpa [cachedLoop] using h
    | succ t =>
      refine ⟨by simpa [cachedLoop] using hwf, ?_⟩
      intro x v h
      simpa [cachedLoop] using h
  | succ f ih =>
    intro pos toRead st hwf
    cases toRead with
    | zero =>
      refine ⟨by simpa [cachedLoop] using hwf, ?_⟩
      intro x v h
      simpa [cachedLoop] using h
    | succ t =>
      rcases hcl : st.cache (lineOf cfg pos) with _ | b
      · have hwfM : CacheWF cfg (missState cfg (lineOf cfg pos) st) :=
          missState_wf cfg k (lineOf cfg pos) st hL hk (lineOf_mod cfg k pos hL hk) hwf
        have hmono : ∀ x v, st.cache x = some v →
            (missState cfg (lineOf cfg pos) st).cache x = some v := by
          intro x v h
          simp only [missState]
          by_cases hxl : x = lineOf cfg pos
          · rw [hxl] at h
            rw [h] at hcl
            cases hcl
          · rw [if_neg hxl]
            exact h
        obtain ⟨W1, W2⟩ := ih (pos + dReadOf cfg pos (t + 1)) (t + 1 - dReadOf cfg pos (t + 1))
          (missState cfg (lineOf cfg pos) st) hwfM
        rw [cachedLoop_miss_snd cfg f pos t st hcl]
        exact ⟨W1, fun x v h => W2 x v (hmono x v h)⟩
      · obtain ⟨W1, W2⟩ := ih (pos + dReadOf cfg pos (t + 1)) (t + 1 - dReadOf cfg pos (t + 1))
          st hwf
        rw [cachedLoop_hit_snd cfg f pos t st b hcl]
        exact ⟨W1, W2⟩

/-! ### The prefetch branch of `ioRequest` -/

/-- Source `block_size = size + ((cacheLineSize - (size % cacheLineSize)) % cacheLineSize)`
is `size` rounded up to a multiple of the line size. -/
theorem blockSize_mod (L size : Nat) (hL : 0 < L) :
    (size + ((L - size % L) % L)) % L = 0 := by
  have hr : size % L < L := Nat.mod_lt _ hL
  by_cases h0 : size % L = 0
  · have h1 : (L - size % L) % L = 0 := by
      rw [h0, Nat.sub_zero, Nat.mod_self]
    rw [h1, Nat.add_zero]
    exact h0
  · have h1 : (L - size % L) % L = L - size % L := Nat.mod_eq_of_lt (by omega)
    rw [h1, Nat.add_mod, h1]
    have h2 : size % L + (L - size % L) = L := by omega
    rw [h2, Nat.mod_self]

theorem blockSize_le (L size : Nat) :
    size ≤ size + ((L - size % L) % L) := by omega

theorem blockSize_lt (L size : Nat) (hL : 0 < L) :
    size + ((L - size % L) % L) < size + L := by
  have h : (L - size % L) % L < L := Nat.mod_lt _ hL
  omega

/-- Full characterization of the prefetch loop: starting from `data_index =
idx` (a multiple of the line size), it overwrites every line-aligned slot of
`[line + idx, line + blockSize)` with the corresponding slice of the fetched
block, which is the driver's content for that line; all other slots are
untouched. -/
theorem prefetchLoop_spec (cfg : Config) (line blockSize : Nat) (block : List Nat)
    (hLpos : 0 < cfg.cacheLineSize)
    (hbs : blockSize % cfg.cacheLineSize = 0)
    (hblock : block = driverRead cfg.drv line blockSize) :
    ∀ fuel idx cache, idx % cfg.cacheLineSize = 0 → blockSize - idx ≤ fuel →
      ∀ x, prefetchLoop cfg fuel (line + idx) idx blockSize block cache x
          = if line + idx ≤ x ∧ x < line + blockSize ∧ (x - line) % cfg.cacheLineSize = 0
            then some (driverRead cfg.drv x cfg.cacheLineSize) else cache x := by
  intro fuel
  induction fuel with
  | zero =>
    intro idx cache hidx hfu x
    have hge : blockSize ≤ idx := by omega
    simp only [prefetchLoop]
    rw [if_neg]
    intro h
    omega
  | succ fu ih =>
    intro idx cache hidx hfu x
    by_cases hlt : idx < blockSize
    · have hd1 : cfg.cacheLineSize ∣ blockSize := Nat.dvd_of_mod_eq_zero hbs
      have hd2 : cfg.cacheLineSize ∣ idx := Nat.dvd_of_mod_eq_zero hidx
      have hd3 : cfg.cacheLineSize ∣ (blockSize - idx) := Nat.dvd_sub' hd1 hd2
      have hle : idx + cfg.cacheLineSize ≤ blockSize := by
        have := Nat.le_of_dvd (by omega) hd3
        omega
      have hsl : pySlice block idx (idx + cfg.cacheLineSize)
          = driverRead cfg.drv (line + idx) cfg.cacheLineSize := by
        rw [hblock, pySlice_driverRead cfg.drv line blockSize idx (idx + cfg.cacheLineSize)
          (by omega) hle]
        congr 1
        omega
      simp only [prefetchLoop]
      rw [if_pos hlt]
      have hrec := ih (idx + cfg.cacheLineSize)
        (fun y => if y = line + idx then some (pySlice block idx (idx + cfg.cacheLineSize))
                  else cache y)
        (by rw [Nat.add_mod_right]; exact hidx) (by omega)
      rw [← Nat.add_assoc] at hrec
      rw [hrec x]
      by_cases hc1 : line + idx + cfg.cacheLineSize ≤ x
          ∧ x < line + blockSize ∧ (x - line) % cfg.cacheLineSize = 0
      · rw [if_pos hc1]
        rw [if_pos (show line + idx ≤ x ∧ x < line + blockSize
          ∧ (x - line) % cfg.cacheLineSize = 0 from ⟨by omega, hc1.2.1, hc1.2.2⟩)]
      · rw [if_neg hc1]
        by_cases hc2 : x = line + idx
        · subst hc2
          have hcond : line + idx ≤ line + idx ∧ line + idx < line + blockSize
              ∧ (line + idx - line) % cfg.cacheLineSize = 0 := by
            refine ⟨le_refl _, by omega, ?_⟩
            have h : line + idx - line = idx := by omega
            rw [h]
            exact hidx
          rw [if_pos hcond]
          simp [hsl]
        · have hbeta : (fun y => if y = line + idx
                then some (pySlice block idx (idx + cfg.cacheLineSize)) else cache y) x
              = if x = line + idx
                then some (pySlice block idx (idx + cfg.cacheLineSize)) else cache x := rfl
          rw [hbeta, if_neg hc2]
          by_cases hc3 : line + idx ≤ x ∧ x < line + blockSize
              ∧ (x - line) % cfg.cacheLineSize = 0
          · exfalso
            apply hc1
            obtain ⟨a, bb, c⟩ := hc3
            have he1 : cfg.cacheLineSize ∣ (x - line) := Nat.dvd_of_mod_eq_zero c
            have he2 : cfg.cacheLineSize ∣ (x - line - idx) := Nat.dvd_sub' he1 hd2
            have he3 : 0 < x - line - idx := by omega
            have := Nat.le_of_dvd he3 he2
            exact ⟨by omega, bb, c⟩
          · rw [if_neg hc3]
    · simp only [prefetchLoop]
      rw [if_neg hlt, if_neg]
      intro h
      omega

/-! ### `ioRequest` branch characterizations -/

theorem ioRequest_cached_eq (cfg : Config) (pos size : Nat) (p : Bool) (st : IoState) :
    ioRequest cfg pos size true p st
      = (some (cachedLoop cfg size pos size st).1.flatten,
         (cachedLoop cfg size pos size st).2) := by
  simp [ioRequest]

theorem ioRequest_direct_eq (cfg : Config) (pos size : Nat) (st : IoState) :
    ioRequest cfg pos size false false st
      = (some (driverRead cfg.drv (pos + cfg.baseAddress) size),
         ⟨st.cache, st.log ++ [(pos + cfg.baseAddress, size)]⟩) := by
  simp [ioRequest]

theorem ioRequest_prefetch_eq (cfg : Config) (pos size : Nat) (st : IoState) :
    ioRequest cfg pos size false true st
      = (none,
         ⟨prefetchLoop cfg (blockSizeOf cfg size) (lineOf cfg pos) 0 (blockSizeOf cfg size)
            (driverRead cfg.drv (lineOf cfg pos) (blockSizeOf cfg size)) st.cache,
          st.log ++ [(lineOf cfg pos, blockSizeOf cfg size)]⟩) := by
  simp [ioRequest, blockSizeOf]

/-- Full characterization of the prefetch branch: it returns no data, issues
one single driver fetch of the whole aligned block `[line, line + blockSize)`
starting at the request's aligned line, and overwrites exactly the line-aligned
slots of that block with the driver's content for each line. -/
theorem ioRequest_prefetch_spec (cfg : Config) (k : Nat)
    (hL : cfg.cacheLineSize = 2 ^ k) (hk : k ≤ 64) (pos size : Nat) (st : IoState) :
    (ioRequest cfg pos size false true st).1 = none
    ∧ (ioRequest cfg pos size false true st).2.log
        = st.log ++ [(lineOf cfg pos, blockSizeOf cfg size)]
    ∧ ∀ x, (ioRequest cfg pos size false true st).2.cache x
        = if lineOf cfg pos ≤ x ∧ x < lineOf cfg pos + blockSizeOf cfg size
             ∧ (x - lineOf cfg pos) % cfg.cacheLineSize = 0
          then some (driverRead cfg.drv x cfg.cacheLineSize) else st.cache x := by
  have hLpos : 0 < cfg.cacheLineSize := by
    rw [hL]; exact Nat.pos_pow_of_pos k (by norm_num)
  have hbs : blockSizeOf cfg size % cfg.cacheLineSize = 0 :=
    blockSize_mod cfg.cacheLineSize size hLpos
  rw [ioRequest_prefetch_eq cfg pos size st]
  refine ⟨rfl, rfl, ?_⟩
  intro x
  have hr := prefetchLoop_spec cfg (lineOf cfg pos) (blockSizeOf cfg size)
    (driverRead cfg.drv (lineOf cfg pos) (blockSizeOf cfg size)) hLpos hbs rfl
    (blockSizeOf cfg size) 0 st.cache (Nat.zero_mod _) (by omega) x
  rw [Nat.add_zero] at hr
  exact hr

/-- Prefetch preserves cache well-formedness, and (because the driver is
deterministic) never changes the bytes associated with a key that is already
present: it can only overwrite a line with identical content. -/
theorem ioRequest_prefetch_wf (cfg : Config) (k : Nat)
    (hL : cfg.cacheLineSize = 2 ^ k) (hk : k ≤ 64) (pos size : Nat) (st : IoState)
    (hwf : CacheWF cfg st) :
    CacheWF cfg (ioRequest cfg pos size false true st).2
    ∧ (∀ x v, st.cache x = some v →
        (ioRequest cfg pos size false true st).2.cache x = some v) := by
  obtain ⟨_, _, hcache⟩ := ioRequest_prefetch_spec cfg k hL hk pos size st
  have hlmod : lineOf cfg pos % cfg.cacheLineSize = 0 := lineOf_mod cfg k pos hL hk
  constructor
  · intro x v hx
    rw [hcache x] at hx
    by_cases hc : lineOf cfg pos ≤ x ∧ x < lineOf cfg pos + blockSizeOf cfg size
        ∧ (x - lineOf cfg pos) % cfg.cacheLineSize = 0
    · rw [if_pos hc] at hx
      cases hx
      constructor
      · obtain ⟨a, _, c⟩ := hc
        have he : x = lineOf cfg pos + (x - lineOf cfg pos) := by omega
        rw [he, Nat.add_mod, hlmod, c]
        simp
      · rfl
    · rw [if_neg hc] at hx
      exact hwf x v hx
  · intro x v hx
    rw [hcache x]
    by_cases hc : lineOf cfg pos ≤ x ∧ x < lineOf cfg pos + blockSizeOf cfg size
        ∧ (x - lineOf cfg pos) % cfg.cacheLineSize = 0
    · rw [if_pos hc]
      obtain ⟨_, hv⟩ := hwf x v hx
      rw [hv]
    · rw [if_neg hc]
      exact hx

/-- Any single `ioRequest` call, whatever its flags and arguments, preserves
cache well-formedness and the content of every present cache entry. -/
theorem runOp_wf (cfg : Config) (k : Nat)
    (hL : cfg.cacheLineSize = 2 ^ k) (hk : k ≤ 64) (st : IoState)
    (op : Nat × Nat × Bool × Bool) (hwf : CacheWF cfg st) :
    CacheWF cfg (runOp cfg st op)
    ∧ (∀ x v, st.cache x = some v → (runOp cfg st op).cache x = some v) := by
  obtain ⟨pos, size, c, p⟩ := op
  cases c with
  | true =>
    have h := cachedLoop_wf cfg k hL hk size pos size st hwf
    simp only [runOp, ioRequest_cached_eq]
    exact h
  | false =>
    cases p with
    | true => exact ioRequest_prefetch_wf cfg k hL hk pos size st hwf
    | false =>
      simp only [runOp, ioRequest_direct_eq]
      exact ⟨hwf, fun x v h => h⟩

theorem runOps_wf (cfg : Config) (k : Nat)
    (hL : cfg.cacheLineSize = 2 ^ k) (hk : k ≤ 64) :
    ∀ (ops : List (Nat × Nat × Bool × Bool)) (st : IoState), CacheWF cfg st →
      CacheWF cfg (runOps cfg ops st)
      ∧ (∀ x v, st.cache x = some v → (runOps cfg ops st).cache x = some v) := by
  intro ops
  induction ops with
  | nil => exact fun st hwf => ⟨hwf, fun x v h => h⟩
  | cons op rest ih =>
    intro st hwf
    obtain ⟨h1, h2⟩ := runOp_wf cfg k hL hk st op hwf
    obtain ⟨h3, h4⟩ := ih (runOp cfg st op) h1
    exact ⟨h3, fun x v h => h4 x v (h2 x v h)⟩

theorem initState_wf (cfg : Config) : CacheWF cfg initState := by
  intro x v h
  cases h

theorem driverRead_two (drv : Nat → Nat) (o : Nat) :
    driverRead drv o 2 = [drv o, drv (o + 1)] := by
  simp [driverRead, List.range_succ]

/-- Across any sequence of cached reads, the fetch log only ever gains entries,
each new entry is a full aligned line, every logged line stays in the cache,
and no line is ever logged twice. -/
theorem runCachedReads_invariant (cfg : Config) (k : Nat)
    (hL : cfg.cacheLineSize = 2 ^ k) (hk : k ≤ 64) :
    ∀ (reads : List (Nat × Nat)) (st : IoState),
      (∀ r ∈ reads, r.1 + cfg.baseAddress + r.2 ≤ 2 ^ 64) →
      CacheWF cfg st →
      (st.log.map Prod.fst).Nodup →
      (∀ e ∈ st.log, (st.cache e.1).isSome = true) →
      ∃ newFetches : List (Nat × Nat),
        (runCachedReads cfg reads st).log = st.log ++ newFetches
        ∧ (∀ e ∈ newFetches, e.2 = cfg.cacheLineSize ∧ e.1 % cfg.cacheLineSize = 0)
        ∧ CacheWF cfg (runCachedReads cfg reads st)
        ∧ ((runCachedReads cfg reads st).log.map Prod.fst).Nodup
        ∧ (∀ e ∈ (runCachedReads cfg reads st).log,
            ((runCachedReads cfg reads st).cache e.1).isSome = true) := by
  intro reads
  induction reads with
  | nil =>
    intro st hb hwf hnd hsome
    exact ⟨[], by simp [runCachedReads], by simp, hwf, hnd, hsome⟩
  | cons rd rest ih =>
    intro st hb hwf hnd hsome
    have hbr : rd.1 + cfg.baseAddress + rd.2 ≤ 2 ^ 64 := hb rd (List.mem_cons_self _ _)
    obtain ⟨missed, S1, S2, S3, S4, S5, S6, S7⟩ :=
      cachedLoop_spec cfg k hL hk rd.2 rd.1 rd.2 st (le_refl _) hbr hwf
    have hstep : runCachedReads cfg (rd :: rest) st
        = runCachedReads cfg rest (cachedLoop cfg rd.2 rd.1 rd.2 st).2 := by
      simp [runCachedReads, ioRequest_cached_eq]
    have hwf1 : CacheWF cfg (cachedLoop cfg rd.2 rd.1 rd.2 st).2 :=
      (cachedLoop_wf cfg k hL hk rd.2 rd.1 rd.2 st hwf).1
    have hmfst : (missed.map (fun l => (l, cfg.cacheLineSize))).map Prod.fst = missed := by
      rw [List.map_map]
      exact List.map_id missed
    have hnd1 : (((cachedLoop cfg rd.2 rd.1 rd.2 st).2.log).map Prod.fst).Nodup := by
      rw [S2, List.map_append, hmfst]
      rw [List.nodup_append]
      refine ⟨hnd, ?_, ?_⟩
      · exact S6.imp (fun h => Nat.ne_of_lt h)
      · intro a ha hamem
        obtain ⟨e, he, heq⟩ := List.mem_map.mp ha
        have h1 := hsome e he
        have h2 := (S5 a hamem).2.1
        rw [heq, h2] at h1
        simp at h1
    have hsome1 : ∀ e ∈ (cachedLoop cfg rd.2 rd.1 rd.2 st).2.log,
        ((cachedLoop cfg rd.2 rd.1 rd.2 st).2.cache e.1).isSome = true := by
      intro e he
      rw [S3 e.1]
      by_cases hmem : e.1 ∈ missed
      · rw [if_pos hmem]; rfl
      · rw [if_neg hmem]
        rw [S2] at he
        rcases List.mem_append.mp he with he1 | he2
        · exact hsome e he1
        · obtain ⟨l, hl, rfl⟩ := List.mem_map.mp he2
          exact absurd hl hmem
    obtain ⟨new2, T1, T2, T3, T4, T5⟩ := ih (cachedLoop cfg rd.2 rd.1 rd.2 st).2
      (fun r hr => hb r (List.mem_cons_of_mem _ hr)) hwf1 hnd1 hsome1
    refine ⟨missed.map (fun l => (l, cfg.cacheLineSize)) ++ new2, ?_, ?_, ?_, ?_, ?_⟩
    · rw [hstep, T1, S2, List.append_assoc]
    · intro e he
      rcases List.mem_append.mp he with he1 | he2
      · obtain ⟨l, hl, rfl⟩ := List.mem_map.mp he1
        exact ⟨rfl, (S5 l hl).1⟩
      · exact T2 e he2
    · rw [hstep]; exact T3
    · rw [hstep]; exact T4
    · rw [hstep]; exact T5

/-- A request straddling exactly two cache lines from a fresh cache triggers
exactly two full-line fetches, in order, and returns the two boundary bytes. -/
theorem cachedRead_straddle (cfg : Config) (k : Nat)
    (hL : cfg.cacheLineSize = 2 ^ k) (hk : k ≤ 64) (pos : Nat)
    (hmod : (pos + cfg.baseAddress) % cfg.cacheLineSize = cfg.cacheLineSize - 1)
    (hA : pos + cfg.baseAddress + 2 ≤ 2 ^ 64) :
    (ioRequest cfg pos 2 true false initState).1
        = some [cfg.drv (pos + cfg.baseAddress), cfg.drv (pos + cfg.baseAddress + 1)]
    ∧ (ioRequest cfg pos 2 true false initState).2.log
        = [(pos + cfg.baseAddress - (cfg.cacheLineSize - 1), cfg.cacheLineSize),
           (pos + cfg.baseAddress + 1, cfg.cacheLineSize)] := by
  have hLpos : 0 < cfg.cacheLineSize := by
    rw [hL]; exact Nat.pos_pow_of_pos k (by norm_num)
  have hr : (pos + cfg.baseAddress) % cfg.cacheLineSize < cfg.cacheLineSize :=
    Nat.mod_lt _ hLpos
  have hrA : (pos + cfg.baseAddress) % cfg.cacheLineSize ≤ pos + cfg.baseAddress :=
    Nat.mod_le _ _
  obtain ⟨missed, S1, S2, S3, S4, S5, S6, S7⟩ :=
    cachedLoop_spec cfg k hL hk 2 pos 2 initState (le_refl _) hA (initState_wf cfg)
  have hval : (ioRequest cfg pos 2 true false initState).1
      = some [cfg.drv (pos + cfg.baseAddress), cfg.drv (pos + cfg.baseAddress + 1)] := by
    rw [ioRequest_cached_eq]
    simp only [S1]
    rw [driverRead_two]
  refine ⟨hval, ?_⟩
  -- the two spanned lines
  have hl1mod : (pos + cfg.baseAddress - (cfg.cacheLineSize - 1)) % cfg.cacheLineSize = 0 := by
    have h := alignDown_aligned cfg.cacheLineSize (pos + cfg.baseAddress)
    unfold alignDown at h
    rw [hmod] at h
    exact h
  have hl2mod : (pos + cfg.baseAddress + 1) % cfg.cacheLineSize = 0 := by
    have he : pos + cfg.baseAddress + 1
        = (pos + cfg.baseAddress - (cfg.cacheLineSize - 1)) + cfg.cacheLineSize := by omega
    rw [he, Nat.add_mod_right]
    exact hl1mod
  have hmem1 : pos + cfg.baseAddress - (cfg.cacheLineSize - 1) ∈ missed := by
    have hp := S7 (pos + cfg.baseAddress - (cfg.cacheLineSize - 1)) (by omega) hl1mod
      (by omega) (by omega)
    rw [S3] at hp
    by_cases hmem : pos + cfg.baseAddress - (cfg.cacheLineSize - 1) ∈ missed
    · exact hmem
    · rw [if_neg hmem] at hp
      cases hp
  have hmem2 : pos + cfg.baseAddress + 1 ∈ missed := by
    have hp := S7 (pos + cfg.baseAddress + 1) (by omega) hl2mod (by omega) (by omega)
    rw [S3] at hp
    by_cases hmem : pos + cfg.baseAddress + 1 ∈ missed
    · exact hmem
    · rw [if_neg hmem] at hp
      cases hp
  have hnum2 : numLines cfg.cacheLineSize (pos + cfg.baseAddress) 2 = 2 := by
    unfold numLines
    rw [if_neg (by omega), hmod]
    have he : cfg.cacheLineSize - 1 + 2 + (cfg.cacheLineSize - 1) = 2 * cfg.cacheLineSize := by
      omega
    rw [he, Nat.mul_div_cancel _ hLpos]
  rw [hnum2] at S4
  -- `missed` is exactly the two lines, in increasing order
  have hmissed : missed = [pos + cfg.baseAddress - (cfg.cacheLineSize - 1),
      pos + cfg.baseAddress + 1] := by
    have hlt : pos + cfg.baseAddress - (cfg.cacheLineSize - 1)
        < pos + cfg.baseAddress + 1 := by omega
    cases missed with
    | nil => exact absurd hmem1 (List.not_mem_nil _)
    | cons a tl =>
      cases tl with
      | nil =>
        rw [List.mem_singleton] at hmem1 hmem2
        omega
      | cons b tl2 =>
        have htl2 : tl2 = [] := by
          have hlen : tl2.length + 2 ≤ 2 := by
            simpa using S4
          exact List.eq_nil_of_length_eq_zero (by omega)
        subst htl2
        have hab : a < b := by
          have h := (List.pairwise_cons.mp S6).1 b
          exact h (List.mem_cons_self _ _)
        have hm1 : a = pos + cfg.baseAddress - (cfg.cacheLineSize - 1)
            ∨ b = pos + cfg.baseAddress - (cfg.cacheLineSize - 1) := by
          rcases List.mem_cons.mp hmem1 with h | h
          · exact Or.inl h.symm
          · rw [List.mem_singleton] at h
            exact Or.inr h.symm
        have hm2 : a = pos + cfg.baseAddress + 1 ∨ b = pos + cfg.baseAddress + 1 := by
          rcases List.mem_cons.mp hmem2 with h | h
          · exact Or.inl h.symm
          · rw [List.mem_singleton] at h
            exact Or.inr h.symm
        have ha : a = pos + cfg.baseAddress - (cfg.cacheLineSize - 1) := by omega
        have hb2 : b = pos + cfg.baseAddress + 1 := by omega
        rw [ha, hb2]
  rw [ioRequest_cached_eq]
  simp only [S2, hmissed]
  simp [initState]

/-- C1: a cached read `ioRequest(pos, size, caching=true, prefetch=false)`
returns exactly the bytes the driver would return for the absolute range
`[pos+baseAddress, pos+baseAddress+size)`, from every state reachable by any
earlier sequence of requests — hence regardless of which cache lines were
already present and of the order in which earlier overlapping requests were
issued — provided the line size is a power of two and the addresses fit in 64
bits. -/
theorem cachedRead_returns_driver_bytes (cfg : Config) (k : Nat)
    (hL : cfg.cacheLineSize = 2 ^ k) (hk : k ≤ 64)
    (prior : List (Nat × Nat × Bool × Bool)) (pos size : Nat)
    (h : pos + cfg.baseAddress + size ≤ 2 ^ 64) :
    (ioRequest cfg pos size true false (runOps cfg prior initState)).1
      = some (driverRead cfg.drv (pos + cfg.baseAddress) size) := by
  have hwf := (runOps_wf cfg k hL hk prior initState (initState_wf cfg)).1
  obtain ⟨missed, S1, _⟩ := cachedLoop_spec cfg k hL hk size pos size
    (runOps cfg prior initState) (le_refl _) h hwf
  simp only [ioRequest_cached_eq]
  rw [S1]

/-- Witness for C1 at a concrete configuration, with a prior cached read and a
prior prefetch already in the cache. -/
theorem cachedRead_returns_driver_bytes_witness :
    cfgEx.cacheLineSize = 2 ^ 2 ∧ 2 ≤ 64 ∧ 5 + cfgEx.baseAddress + 3 ≤ 2 ^ 64
    ∧ (ioRequest cfgEx 5 3 true false
          (runOps cfgEx [(0, 6, true, false), (2, 4, false, true)] initState)).1
        = some (driverRead cfgEx.drv (5 + cfgEx.baseAddress) 3) :=
  ⟨by decide, by decide, by decide,
   cachedRead_returns_driver_bytes cfgEx 2 (by decide) (by decide)
     [(0, 6, true, false), (2, 4, false, true)] 5 3 (by decide)⟩

/-- C2: a cached read spanning `N` cache lines performs at most `N` driver
fetches (zero for lines already present), each fetch reading exactly one full
line at its aligned start; over any sequence of cached reads from a fresh
handle, at most one driver fetch is ever issued per distinct cache line (the
logged line starts are pairwise distinct); and a request straddling exactly
two cache lines (`pos+base ≡ lineSize-1`, `size = 2`) triggers exactly two
line fetches and returns the two boundary bytes concatenated in order. -/
theorem cachedRead_fetch_counts (cfg : Config) (k : Nat)
    (hL : cfg.cacheLineSize = 2 ^ k) (hk : k ≤ 64) :
    (∀ pos size st, pos + cfg.baseAddress + size ≤ 2 ^ 64 → CacheWF cfg st →
      ∃ fetched : List Nat,
        (ioRequest cfg pos size true false st).2.log
            = st.log ++ fetched.map (fun l => (l, cfg.cacheLineSize))
        ∧ fetched.length ≤ numLines cfg.cacheLineSize (pos + cfg.baseAddress) size
        ∧ (∀ l ∈ fetched, l % cfg.cacheLineSize = 0 ∧ st.cache l = none))
    ∧ (∀ reads : List (Nat × Nat),
        (∀ r ∈ reads, r.1 + cfg.baseAddress + r.2 ≤ 2 ^ 64) →
        ((runCachedReads cfg reads initState).log.map Prod.fst).Nodup
        ∧ (∀ e ∈ (runCachedReads cfg reads initState).log,
            e.2 = cfg.cacheLineSize ∧ e.1 % cfg.cacheLineSize = 0))
    ∧ (∀ pos, (pos + cfg.baseAddress) % cfg.cacheLineSize = cfg.cacheLineSize - 1 →
        pos + cfg.baseAddress + 2 ≤ 2 ^ 64 →
        (ioRequest cfg pos 2 true false initState).1
            = some [cfg.drv (pos + cfg.baseAddress), cfg.drv (pos + cfg.baseAddress + 1)]
        ∧ (ioRequest cfg pos 2 true false initState).2.log
            = [(pos + cfg.baseAddress - (cfg.cacheLineSize - 1), cfg.cacheLineSize),
               (pos + cfg.baseAddress + 1, cfg.cacheLineSize)]) := by
  refine ⟨?_, ?_, ?_⟩
  · intro pos size st hA hwf
    obtain ⟨missed, S1, S2, S3, S4, S5, S6, S7⟩ :=
      cachedLoop_spec cfg k hL hk size pos size st (le_refl _) hA hwf
    refine ⟨missed, ?_, S4, fun l hl => ⟨(S5 l hl).1, (S5 l hl).2.1⟩⟩
    simp only [ioRequest_cached_eq]
    exact S2
  · intro reads hb
    obtain ⟨newF, T1, T2, T3, T4, T5⟩ := runCachedReads_invariant cfg k hL hk reads initState
      hb (initState_wf cfg) (by simp [initState]) (by simp [initState])
    refine ⟨T4, ?_⟩
    intro e he
    rw [T1] at he
    simp only [initState, List.nil_append] at he
    exact T2 e he
  · intro pos hmod hA
    exact cachedRead_straddle cfg k hL hk pos hmod hA

/-- Witness for C2 at a concrete configuration. -/
theorem cachedRead_fetch_counts_witness :
    cfgEx.cacheLineSize = 2 ^ 2 ∧ 2 ≤ 64
    ∧ ((∀ pos size st, pos + cfgEx.baseAddress + size ≤ 2 ^ 64 → CacheWF cfgEx st →
      ∃ fetched : List Nat,
        (ioRequest cfgEx pos size true false st).2.log
            = st.log ++ fetched.map (fun l => (l, cfgEx.cacheLineSize))
        ∧ fetched.length ≤ numLines cfgEx.cacheLineSize (pos + cfgEx.baseAddress) size
        ∧ (∀ l ∈ fetched, l % cfgEx.cacheLineSize = 0 ∧ st.cache l = none))
    ∧ (∀ reads : List (Nat × Nat),
        (∀ r ∈ reads, r.1 + cfgEx.baseAddress + r.2 ≤ 2 ^ 64) →
        ((runCachedReads cfgEx reads initState).log.map Prod.fst).Nodup
        ∧ (∀ e ∈ (runCachedReads cfgEx reads initState).log,
            e.2 = cfgEx.cacheLineSize ∧ e.1 % cfgEx.cacheLineSize = 0))
    ∧ (∀ pos, (pos + cfgEx.baseAddress) % cfgEx.cacheLineSize = cfgEx.cacheLineSize - 1 →
        pos + cfgEx.baseAddress + 2 ≤ 2 ^ 64 →
        (ioRequest cfgEx pos 2 true false initState).1
            = some [cfgEx.drv (pos + cfgEx.baseAddress), cfgEx.drv (pos + cfgEx.baseAddress + 1)]
        ∧ (ioRequest cfgEx pos 2 true false initState).2.log
            = [(pos + cfgEx.baseAddress - (cfgEx.cacheLineSize - 1), cfgEx.cacheLineSize),
               (pos + cfgEx.baseAddress + 1, cfgEx.cacheLineSize)])) :=
  ⟨by decide, by decide, cachedRead_fetch_counts cfgEx 2 (by decide) (by decide)⟩

/-- C5 (amended): the prefetch branch of `ioRequest` runs only when
`caching=false`; when `caching=true` the `prefetch` flag is ignored and an
ordinary cached read is performed.  With `caching=false, prefetch=true` the
call rounds `size` up to a multiple of the line size, issues one single driver
fetch of that whole aligned block starting at the request's aligned line,
inserts each line of the block into the cache, and returns no data. -/
theorem prefetch_mode_spec (cfg : Config) (k : Nat)
    (hL : cfg.cacheLineSize = 2 ^ k) (hk : k ≤ 64) :
    (∀ pos size st,
      (ioRequest cfg pos size false true st).1 = none
      ∧ blockSizeOf cfg size % cfg.cacheLineSize = 0
      ∧ size ≤ blockSizeOf cfg size
      ∧ blockSizeOf cfg size < size + cfg.cacheLineSize
      ∧ (ioRequest cfg pos size false true st).2.log
          = st.log ++ [(lineOf cfg pos, blockSizeOf cfg size)]
      ∧ (∀ i, i * cfg.cacheLineSize < blockSizeOf cfg size →
          (ioRequest cfg pos size false true st).2.cache
              (lineOf cfg pos + i * cfg.cacheLineSize)
            = some (driverRead cfg.drv (lineOf cfg pos + i * cfg.cacheLineSize)
                cfg.cacheLineSize)))
    ∧ (∀ pos size st,
        ioRequest cfg pos size true true st = ioRequest cfg pos size true false st) := by
  have hLpos : 0 < cfg.cacheLineSize := by
    rw [hL]; exact Nat.pos_pow_of_pos k (by norm_num)
  constructor
  · intro pos size st
    obtain ⟨P1, P2, P3⟩ := ioRequest_prefetch_spec cfg k hL hk pos size st
    refine ⟨P1, blockSize_mod cfg.cacheLineSize size hLpos, blockSize_le cfg.cacheLineSize size,
      blockSize_lt cfg.cacheLineSize size hLpos, P2, ?_⟩
    intro i hi
    rw [P3 (lineOf cfg pos + i * cfg.cacheLineSize)]
    rw [if_pos]
    refine ⟨Nat.le_add_right _ _, by omega, ?_⟩
    rw [Nat.add_sub_cancel_left]
    exact Nat.mul_mod_left i cfg.cacheLineSize
  · intro pos size st
    rfl

/-- Counterexample to C5 as stated: with `caching=true` the `prefetch=true`
flag is not honoured — the call performs a cached read and returns data
(the two requested bytes), rather than returning no data. -/
theorem prefetch_flag_not_ignored :
    (ioRequest cfgEx 0 2 true true initState).1 = some [1, 2]
    ∧ ¬ (ioRequest cfgEx 0 2 true true initState).1 = none := by
  constructor
  · decide
  · decide

/-- Witness for C5 (amended) at a concrete configuration. -/
theorem prefetch_mode_spec_witness :
    cfgEx.cacheLineSize = 2 ^ 2 ∧ 2 ≤ 64
    ∧ ((∀ pos size st,
      (ioRequest cfgEx pos size false true st).1 = none
      ∧ blockSizeOf cfgEx size % cfgEx.cacheLineSize = 0
      ∧ size ≤ blockSizeOf cfgEx size
      ∧ blockSizeOf cfgEx size < size + cfgEx.cacheLineSize
      ∧ (ioRequest cfgEx pos size false true st).2.log
          = st.log ++ [(lineOf cfgEx pos, blockSizeOf cfgEx size)]
      ∧ (∀ i, i * cfgEx.cacheLineSize < blockSizeOf cfgEx size →
          (ioRequest cfgEx pos size false true st).2.cache
              (lineOf cfgEx pos + i * cfgEx.cacheLineSize)
            = some (driverRead cfgEx.drv (lineOf cfgEx pos + i * cfgEx.cacheLineSize)
                cfgEx.cacheLineSize)))
    ∧ (∀ pos size st,
        ioRequest cfgEx pos size true true st = ioRequest cfgEx pos size true false st)) :=
  ⟨by decide, by decide, prefetch_mode_spec cfgEx 2 (by decide) (by decide)⟩

/-- C6: after a prefetch of `(pos, size)`, a subsequent cached read of any
sub-range of the prefetched aligned block returns exactly the same bytes as
it would have returned had prefetch never been called, and that read performs
zero additional driver fetches (its log is unchanged). -/
theorem prefetch_equivalence (cfg : Config) (k : Nat)
    (hL : cfg.cacheLineSize = 2 ^ k) (hk : k ≤ 64)
    (pos size pos2 size2 : Nat) (st : IoState) (hwf : CacheWF cfg st)
    (h1 : lineOf cfg pos ≤ pos2 + cfg.baseAddress)
    (h2 : pos2 + cfg.baseAddress + size2 ≤ lineOf cfg pos + blockSizeOf cfg size)
    (h3 : pos2 + cfg.baseAddress + size2 ≤ 2 ^ 64) :
    (ioRequest cfg pos2 size2 true false (ioRequest cfg pos size false true st).2).1
      = (ioRequest cfg pos2 size2 true false st).1
    ∧ (ioRequest cfg pos2 size2 true false (ioRequest cfg pos size false true st).2).2.log
      = (ioRequest cfg pos size false true st).2.log := by
  have hLpos : 0 < cfg.cacheLineSize := by
    rw [hL]; exact Nat.pos_pow_of_pos k (by norm_num)
  have hlmod : lineOf cfg pos % cfg.cacheLineSize = 0 := lineOf_mod cfg k pos hL hk
  obtain ⟨P1, P2, P3⟩ := ioRequest_prefetch_spec cfg k hL hk pos size st
  have hwf1 : CacheWF cfg (ioRequest cfg pos size false true st).2 :=
    (ioRequest_prefetch_wf cfg k hL hk pos size st hwf).1
  obtain ⟨missed1, S1, S2, S3, S4, S5, S6, S7⟩ :=
    cachedLoop_spec cfg k hL hk size2 pos2 size2
      (ioRequest cfg pos size false true st).2 (le_refl _) h3 hwf1
  obtain ⟨missed0, T1, _⟩ :=
    cachedLoop_spec cfg k hL hk size2 pos2 size2 st (le_refl _) h3 hwf
  have hnone : missed1 = [] := by
    cases hm : missed1 with
    | nil => rfl
    | cons a tl =>
      exfalso
      have ha : a ∈ missed1 := by rw [hm]; exact List.mem_cons_self _ _
      obtain ⟨m1, m2, m3, m4⟩ := S5 a ha
      have hla : lineOf cfg pos ≤ a := by
        calc lineOf cfg pos
            ≤ alignDown cfg.cacheLineSize (pos2 + cfg.baseAddress) :=
              le_alignDown_of_aligned _ _ _ hlmod h1
          _ ≤ a := m3
      have hmod2 : (a - lineOf cfg pos) % cfg.cacheLineSize = 0 := by
        have hd1 : cfg.cacheLineSize ∣ a := Nat.dvd_of_mod_eq_zero m1
        have hd2 : cfg.cacheLineSize ∣ lineOf cfg pos := Nat.dvd_of_mod_eq_zero hlmod
        exact Nat.mod_eq_zero_of_dvd (Nat.dvd_sub' hd1 hd2)
      have hsome := P3 a
      rw [if_pos ⟨hla, by omega, hmod2⟩] at hsome
      rw [hsome] at m2
      cases m2
  constructor
  · simp only [ioRequest_cached_eq]
    rw [S1, T1]
  · simp only [ioRequest_cached_eq]
    rw [S2, hnone]
    simp

/-- Witness for C6: prefetch `[0, 8)` (pos 2, size 6 with base address 1,
aligned block of two lines), then read the sub-range `[5, 8)`. -/
theorem prefetch_equivalence_witness :
    cfgEx.cacheLineSize = 2 ^ 2 ∧ 2 ≤ 64 ∧ CacheWF cfgEx initState
    ∧ lineOf cfgEx 2 ≤ 4 + cfgEx.baseAddress
    ∧ 4 + cfgEx.baseAddress + 3 ≤ lineOf cfgEx 2 + blockSizeOf cfgEx 6
    ∧ 4 + cfgEx.baseAddress + 3 ≤ 2 ^ 64
    ∧ ((ioRequest cfgEx 4 3 true false (ioRequest cfgEx 2 6 false true initState).2).1
        = (ioRequest cfgEx 4 3 true false initState).1
      ∧ (ioRequest cfgEx 4 3 true false (ioRequest cfgEx 2 6 false true initState).2).2.log
        = (ioRequest cfgEx 2 6 false true initState).2.log) :=
  ⟨by decide, by decide, initState_wf cfgEx, by decide, by decide, by decide,
   prefetch_equivalence cfgEx 2 (by decide) (by decide) 2 6 4 3 initState
     (initState_wf cfgEx) (by decide) (by decide) (by decide)⟩

/-- C10: after any sequence of `ioRequest` calls (cached reads, prefetches,
direct reads) against the deterministic driver, every key present in the cache
is aligned to the line size, its buffer is exactly `cacheLineSize` bytes equal
to the driver's bytes for `[key, key+lineSize)`, and once a key is present the
bytes associated with it never change under further requests; lines are never
partially updated. -/
theorem cache_invariant (cfg : Config) (k : Nat)
    (hL : cfg.cacheLineSize = 2 ^ k) (hk : k ≤ 64) :
    (∀ (ops : List (Nat × Nat × Bool × Bool)) (x : Nat) (v : List Nat),
        (runOps cfg ops initState).cache x = some v →
        x % cfg.cacheLineSize = 0 ∧ v.length = cfg.cacheLineSize
          ∧ v = driverRead cfg.drv x cfg.cacheLineSize)
    ∧ (∀ (ops more : List (Nat × Nat × Bool × Bool)) (x : Nat) (v : List Nat),
        (runOps cfg ops initState).cache x = some v →
        (runOps cfg (ops ++ more) initState).cache x = some v) := by
  constructor
  · intro ops x v hx
    obtain ⟨h1, h2⟩ := (runOps_wf cfg k hL hk ops initState (initState_wf cfg)).1 x v hx
    exact ⟨h1, by rw [h2, driverRead_length], h2⟩
  · intro ops more x v hx
    have happ : runOps cfg (ops ++ more) initState
        = runOps cfg more (runOps cfg ops initState) := by
      simp [runOps, List.foldl_append]
    rw [happ]
    have hwf := (runOps_wf cfg k hL hk ops initState (initState_wf cfg)).1
    exact (runOps_wf cfg k hL hk more (runOps cfg ops initState) hwf).2 x v hx

/-- Witness for C10 at a concrete configuration. -/
theorem cache_invariant_witness :
    cfgEx.cacheLineSize = 2 ^ 2 ∧ 2 ≤ 64
    ∧ ((∀ (ops : List (Nat × Nat × Bool × Bool)) (x : Nat) (v : List Nat),
        (runOps cfgEx ops initState).cache x = some v →
        x % cfgEx.cacheLineSize = 0 ∧ v.length = cfgEx.cacheLineSize
          ∧ v = driverRead cfgEx.drv x cfgEx.cacheLineSize)
    ∧ (∀ (ops more : List (Nat × Nat × Bool × Bool)) (x : Nat) (v : List Nat),
        (runOps cfgEx ops initState).cache x = some v →
        (runOps cfgEx (ops ++ more) initState).cache x = some v)) :=
  ⟨by decide, by decide, cache_invariant cfgEx 2 (by decide) (by decide)⟩

/-- Validation of the split model against Python `str.split` outputs. -/
theorem pySplit_python_semantics :
    pySplit "g/b/attr1" "g" = ["", "/b/attr1"]
    ∧ pySplit "gg/x" "g" = ["", "", "/x"]
    ∧ pySplit "ab" "b" = ["a", ""]
    ∧ pySplit "b/attr1" "/" = ["b", "attr1"]
    ∧ massageGroup "/g" = some "g"
    ∧ massageGroup "/" = none
    ∧ massageGroup "/g/" = some "g" := by
  refine ⟨by decide, by decide, by decide, by decide, by decide, by decide, by decide⟩

/-! ### Dictionary lemmas for `readDatasets` -/

theorem tableGet_dictInsert (t : List (String × DatasetSpec)) (kk : String)
    (v : DatasetSpec) (p : String) :
    tableGet (dictInsert t kk v) p = if p = kk then some v else tableGet t p := by
  induction t with
  | nil =>
    by_cases h : p = kk
    · subst h
      simp [dictInsert, tableGet]
    · have hb : (kk == p) = false := by
        simp only [beq_eq_false_iff_ne]
        exact fun hx => h hx.symm
      simp [dictInsert, tableGet, List.find?, hb, h]
  | cons e t ih =>
    by_cases he : e.1 = kk
    · by_cases h : p = kk
      · subst h
        simp [dictInsert, tableGet, List.find?, he]
      · have hb : (kk == p) = false := by
          simp only [beq_eq_false_iff_ne]
          exact fun hx => h hx.symm
        have hb2 : (e.1 == p) = false := by
          simp only [beq_eq_false_iff_ne]
          rw [he]
          exact fun hx => h hx.symm
        simp [dictInsert, tableGet, List.find?, he, hb, hb2, h]
    · by_cases hp : e.1 = p
      · have hb3 : (e.1 == p) = true := by simp [hp]
        have h : ¬ p = kk := fun hx => he (hp.trans hx)
        simp [dictInsert, tableGet, List.find?, he, hb3, h]
      · have hb4 : (e.1 == p) = false := by simpa using hp
        simp only [dictInsert, if_neg he, tableGet, List.find?, hb4]
        simp only [tableGet] at ih
        exact ih

theorem keys_dictInsert (t : List (String × DatasetSpec)) (kk : String) (v : DatasetSpec) :
    (dictInsert t kk v).map Prod.fst
      = if kk ∈ t.map Prod.fst then t.map Prod.fst else t.map Prod.fst ++ [kk] := by
  induction t with
  | nil => simp [dictInsert]
  | cons e t ih =>
    by_cases he : e.1 = kk
    · simp only [dictInsert, if_pos he, List.map_cons]
      rw [if_pos]
      · rw [he]
      · rw [← he]
        exact List.mem_cons_self _ _
    · simp only [dictInsert, if_neg he, List.map_cons, ih]
      by_cases hmem : kk ∈ t.map Prod.fst
      · rw [if_pos hmem, if_pos (List.mem_cons_of_mem _ hmem)]
      · rw [if_neg hmem, if_neg]
        · rfl
        · intro hx
          rcases List.mem_cons.mp hx with hx1 | hx2
          · exact he hx1.symm
          · exact hmem hx2

theorem dictInsert_entry (t : List (String × DatasetSpec)) (kk : String) (v : DatasetSpec)
    (h : ∀ e ∈ t, e.1 = e.2.dataset) (hkv : kk = v.dataset) :
    ∀ e ∈ dictInsert t kk v, e.1 = e.2.dataset := by
  induction t with
  | nil =>
    intro e he
    simp only [dictInsert, List.mem_singleton] at he
    rw [he]
    exact hkv
  | cons a t ih =>
    intro e he
    by_cases ha : a.1 = kk
    · simp only [dictInsert, if_pos ha] at he
      rcases List.mem_cons.mp he with h1 | h2
      · rw [h1]; exact hkv
      · exact h e (List.mem_cons_of_mem _ h2)
    · simp only [dictInsert, if_neg ha] at he
      rcases List.mem_cons.mp he with h1 | h2
      · rw [h1]; exact h a (List.mem_cons_self _ _)
      · exact ih (fun x hx => h x (List.mem_cons_of_mem _ hx)) e h2

theorem dictInsert_nodup (t : List (String × DatasetSpec)) (kk : String) (v : DatasetSpec)
    (h : (t.map Prod.fst).Nodup) :
    ((dictInsert t kk v).map Prod.fst).Nodup := by
  rw [keys_dictInsert]
  by_cases hmem : kk ∈ t.map Prod.fst
  · rwa [if_pos hmem]
  · rw [if_neg hmem, List.nodup_append]
    exact ⟨h, List.nodup_singleton _, by
      intro a ha hb
      rw [List.mem_singleton] at hb
      rw [hb] at ha
      exact hmem ha⟩

/-- The `dataset_table` fold, generalized over the accumulator: keys stay
duplicate-free, each entry is keyed by its spec's path, the lookup yields the
last-supplied spec for a path, and the key set is the set of requested
paths. -/
theorem buildDatasetTable_go (ds : List DatasetReq) :
    ∀ t : List (String × DatasetSpec),
      (t.map Prod.fst).Nodup →
      (∀ e ∈ t, e.1 = e.2.dataset) →
      (((ds.foldl (fun acc r => dictInsert acc (normalizeReq r).dataset (normalizeReq r))
          t).map Prod.fst).Nodup)
      ∧ (∀ e ∈ ds.foldl (fun acc r => dictInsert acc (normalizeReq r).dataset (normalizeReq r))
          t, e.1 = e.2.dataset)
      ∧ (∀ p, tableGet (ds.foldl
            (fun acc r => dictInsert acc (normalizeReq r).dataset (normalizeReq r)) t) p
          = ((ds.reverse.find? (fun r => (normalizeReq r).dataset == p)).map
              normalizeReq).or (tableGet t p))
      ∧ (∀ p, p ∈ (ds.foldl
            (fun acc r => dictInsert acc (normalizeReq r).dataset (normalizeReq r))
            t).map Prod.fst
          ↔ p ∈ ds.map (fun r => (normalizeReq r).dataset) ∨ p ∈ t.map Prod.fst) := by
  induction ds with
  | nil =>
    intro t h1 h2
    refine ⟨h1, h2, ?_, ?_⟩
    · intro p
      simp
    · intro p
      simp
  | cons r ds ih =>
    intro t h1 h2
    have h1' : ((dictInsert t (normalizeReq r).dataset (normalizeReq r)).map Prod.fst).Nodup :=
      dictInsert_nodup t _ _ h1
    have h2' : ∀ e ∈ dictInsert t (normalizeReq r).dataset (normalizeReq r),
        e.1 = e.2.dataset :=
      dictInsert_entry t _ _ h2 rfl
    obtain ⟨G1, G2, G3, G4⟩ := ih (dictInsert t (normalizeReq r).dataset (normalizeReq r))
      h1' h2'
    refine ⟨G1, G2, ?_, ?_⟩
    · intro p
      rw [List.foldl_cons] at *
      rw [G3 p, List.reverse_cons, List.find?_append, tableGet_dictInsert]
      by_cases hcase : (ds.reverse.find? (fun x => (normalizeReq x).dataset == p)).isSome
      · obtain ⟨x, hx⟩ := Option.isSome_iff_exists.mp hcase
        rw [hx]
        simp
      · rw [Option.not_isSome_iff_eq_none] at hcase
        rw [hcase]
        simp only [Option.map_none', Option.none_or, List.find?_singleton]
        by_cases hp : (normalizeReq r).dataset = p
        · have hb : ((normalizeReq r).dataset == p) = true := by simp [hp]
          simp only [hb, cond_true, Option.map_some', if_pos hp.symm]
          simp
        · have hb : ((normalizeReq r).dataset == p) = false := by simpa using hp
          simp only [hb, cond_false, Option.map_none', Option.none_or,
            if_neg (fun hx : p = (normalizeReq r).dataset => hp hx.symm)]
          simp
    · intro p
      rw [List.foldl_cons, G4 p, keys_dictInsert]
      by_cases hmem : (normalizeReq r).dataset ∈ t.map Prod.fst
      · rw [if_pos hmem]
        constructor
        · intro h
          rcases h with h | h
          · exact Or.inl (List.mem_cons_of_mem _ h)
          · exact Or.inr h
        · intro h
          rcases h with h | h
          · rcases List.mem_cons.mp h with h' | h'
            · exact Or.inr (h' ▸ hmem)
            · exact Or.inl h'
          · exact Or.inr h
      · rw [if_neg hmem]
        constructor
        · intro h
          rcases h with h | h
          · exact Or.inl (List.mem_cons_of_mem _ h)
          · rcases List.mem_append.mp h with h' | h'
            · exact Or.inr h'
            · rw [List.mem_singleton] at h'
              exact Or.inl (h' ▸ List.mem_cons_self _ _)
        · intro h
          rcases h with h | h
          · rcases List.mem_cons.mp h with h' | h'
            · exact Or.inr (List.mem_append.mpr (Or.inr (List.mem_singleton.mpr h')))
            · exact Or.inl h'
          · exact Or.inr (List.mem_append.mpr (Or.inl h))

/-! ### Claim theorems about `readDatasets` and `listGroup` -/

/-- C7: `readDatasets` deduplicates its request list by path before dispatch:
the built table's keys are duplicate-free and are exactly the requested
paths; the spec retained for a path is the last one supplied for it
(strings first normalized); each table entry is keyed by its own spec's
path, so exactly one work task is submitted per distinct path and the
returned handle has exactly one result key per path; and a string-only
request is normalized to a whole-column read (`startrow 0`, all rows). -/
theorem readDatasets_dedup (datasets : List DatasetReq) (h : datasets ≠ []) :
    readDatasets datasets
      = some ((buildDatasetTable datasets).map Prod.snd,
              (buildDatasetTable datasets).map Prod.fst)
    ∧ ((buildDatasetTable datasets).map Prod.fst).Nodup
    ∧ (∀ p, tableGet (buildDatasetTable datasets) p
        = (datasets.reverse.find? (fun r => (normalizeReq r).dataset == p)).map normalizeReq)
    ∧ (∀ p, p ∈ (buildDatasetTable datasets).map Prod.fst
        ↔ p ∈ datasets.map (fun r => (normalizeReq r).dataset))
    ∧ (∀ e ∈ buildDatasetTable datasets, e.1 = e.2.dataset)
    ∧ (∀ s, normalizeReq (.str s) = ⟨s, 0, ALL_ROWS⟩) := by
  obtain ⟨G1, G2, G3, G4⟩ := buildDatasetTable_go datasets [] (by simp) (by simp)
  refine ⟨?_, G1, ?_, ?_, G2, fun s => rfl⟩
  · unfold readDatasets
    rw [if_neg]
    simp only [not_le]
    exact List.length_pos.mpr h
  · intro p
    have h3 := G3 p
    rw [show tableGet ([] : List (String × DatasetSpec)) p = none from rfl] at h3
    rw [buildDatasetTable, h3]
    cases datasets.reverse.find? (fun r => (normalizeReq r).dataset == p) <;> simp
  · intro p
    have h4 := G4 p
    rw [buildDatasetTable, h4]
    simp

/-- Witness for C7: a duplicated path (string first, then a structured spec)
plus a second path. -/
theorem readDatasets_dedup_witness :
    ([DatasetReq.str "/a", DatasetReq.spec ⟨"/a", 5, 7⟩, DatasetReq.str "/b"] : List DatasetReq)
      ≠ []
    ∧ (readDatasets [DatasetReq.str "/a", DatasetReq.spec ⟨"/a", 5, 7⟩, DatasetReq.str "/b"]
      = some ((buildDatasetTable [DatasetReq.str "/a", DatasetReq.spec ⟨"/a", 5, 7⟩,
                DatasetReq.str "/b"]).map Prod.snd,
              (buildDatasetTable [DatasetReq.str "/a", DatasetReq.spec ⟨"/a", 5, 7⟩,
                DatasetReq.str "/b"]).map Prod.fst)
    ∧ ((buildDatasetTable [DatasetReq.str "/a", DatasetReq.spec ⟨"/a", 5, 7⟩,
          DatasetReq.str "/b"]).map Prod.fst).Nodup
    ∧ (∀ p, tableGet (buildDatasetTable [DatasetReq.str "/a", DatasetReq.spec ⟨"/a", 5, 7⟩,
          DatasetReq.str "/b"]) p
        = (([DatasetReq.str "/a", DatasetReq.spec ⟨"/a", 5, 7⟩,
            DatasetReq.str "/b"] : List DatasetReq).reverse.find?
            (fun r => (normalizeReq r).dataset == p)).map normalizeReq)
    ∧ (∀ p, p ∈ (buildDatasetTable [DatasetReq.str "/a", DatasetReq.spec ⟨"/a", 5, 7⟩,
          DatasetReq.str "/b"]).map Prod.fst
        ↔ p ∈ ([DatasetReq.str "/a", DatasetReq.spec ⟨"/a", 5, 7⟩,
            DatasetReq.str "/b"] : List DatasetReq).map (fun r => (normalizeReq r).dataset))
    ∧ (∀ e ∈ buildDatasetTable [DatasetReq.str "/a", DatasetReq.spec ⟨"/a", 5, 7⟩,
          DatasetReq.str "/b"], e.1 = e.2.dataset)
    ∧ (∀ s, normalizeReq (.str s) = ⟨s, 0, ALL_ROWS⟩)) :=
  ⟨by decide,
   readDatasets_dedup [DatasetReq.str "/a", DatasetReq.spec ⟨"/a", 5, 7⟩, DatasetReq.str "/b"]
     (by decide)⟩

/-- Counterexample to C3 as stated: with Metadata Table records for the
group's two variables and a grandchild attribute (keys stored without a
leading slash, the only convention under which the prefix filter matches at
all), `listGroup("/g")` classifies the first path segment `b` of the
grandchild attribute record `g/b/attr1` by that record's `isattribute` flag,
so the returned attribute set is `{b}`, not the empty set the claim
asserts. -/
theorem listGroup_grandchild_attribute_counterexample :
    listGroup [("g/a", false), ("g/b", false), ("g/b/attr1", true)] false
        (fun _ => Except.ok ([], [])) "/g" false
      = .ok (.names ["a", "b"], .names ["b"])
    ∧ ¬ (listGroup [("g/a", false), ("g/b", false), ("g/b/attr1", true)] false
        (fun _ => Except.ok ([], [])) "/g" false
      = .ok (.names ["a", "b"], .names [])) := by
  constructor
  · decide
  · decide

/-- C3 (amended): given Metadata Table entries for the variables `g/a`, `g/b`
and the grandchild attribute `g/b/attr1` keyed without a leading slash,
`listGroup("/g")` returns variables `{a, b}` and attributes `{b}`: each key
matching the slash-stripped group prefix contributes its first following path
segment, classified by that record's `isattribute` flag, so a grandchild
attribute two segments deep reports the intermediate variable's name in the
group's attribute set.  (With the leading-slash keys of the spec's own
examples, no key matches the stripped prefix and both sets come back
empty.) -/
theorem listGroup_classification :
    listGroup [("g/a", false), ("g/b", false), ("g/b/attr1", true)] false
        (fun _ => Except.ok ([], [])) "/g" false
      = .ok (.names ["a", "b"], .names ["b"])
    ∧ listGroup [("/g/a", false), ("/g/b", false), ("/g/b/attr1", true)] false
        (fun _ => Except.ok ([], [])) "/g" false
      = .ok (.names [], .names []) := by
  constructor
  · decide
  · decide

/-- Counterexample to C4 as stated: `listGroup("")` raises the
invalid-argument `RuntimeError` inside the `try` block, but the call returns
normally with empty sets — the error does not reach the caller. -/
theorem listGroup_empty_group_counterexample :
    listGroupBody [] false (fun _ => Except.ok ([], [])) "" false
      = .error (.runtimeError "argument must not be empty")
    ∧ listGroup [] false (fun _ => Except.ok ([], [])) "" false
      = .ok (.names [], .names []) := by
  constructor
  · rfl
  · rfl

/-- C4 (amended): calling `listGroup` with an empty group string raises an
invalid-argument `RuntimeError` inside the function, but `listGroup`'s own
`except RuntimeError` handler catches and logs it, so the call does not
raise to its caller: it returns normally with empty variable and attribute
sets, for every table, parser outcome, inspect oracle and `w_inspect`
flag. -/
theorem listGroup_empty_group (table : List (String × Bool)) (parseFails : Bool)
    (inspect : String → Except String (List (String × String) × List (String × String)))
    (w_inspect : Bool) :
    listGroupBody table parseFails inspect "" w_inspect
      = .error (.runtimeError "argument must not be empty")
    ∧ listGroup table parseFails inspect "" w_inspect = .ok (.names [], .names []) := by
  constructor
  · rfl
  · rfl

/-- C8: in the `listGroup` inspect fan-out, one failing variable cannot sink
the batch: the call returns normally with one entry per discovered variable;
a variable whose `inspectVariable` raises a parse error is recorded (by
`inspectThread`, which catches the error at the task boundary) with the empty
`({}, {})` result, while every other variable's entry is its resolved
`(metadata, attributes)` pair. -/
theorem listGroup_partial_failure (table : List (String × Bool))
    (inspect : String → Except String (List (String × String) × List (String × String)))
    (group g : String)
    (h0 : 0 < group.length) (hm : massageGroup group = some g) (hg : g.length ≠ 0)
    (hv : (listGroupFilter table g).1 ≠ []) :
    ∃ entries lastA,
      listGroup table false inspect group true
        = .ok (.inspected entries, .clobbered lastA)
      ∧ entries.length = (listGroupFilter table g).1.length
      ∧ (∀ v ∈ (listGroupFilter table g).1, ∀ e,
          inspect ("/" ++ g ++ "/" ++ v) = .error e →
          ("/" ++ g ++ "/" ++ v,
            (([], []) : List (String × String) × List (String × String))) ∈ entries)
      ∧ (∀ v ∈ (listGroupFilter table g).1, ∀ r,
          inspect ("/" ++ g ++ "/" ++ v) = .ok r →
          ("/" ++ g ++ "/" ++ v, r) ∈ entries) := by
  have hlen : 0 < (listGroupFilter table g).1.length := List.length_pos.mpr hv
  have hbody : listGroupBody table false inspect group true
      = .ok (.inspected ((listGroupFilter table g).1.map
               (fun v => inspectThread inspect ("/" ++ g ++ "/" ++ v))),
             .clobbered (((((listGroupFilter table g).1.map
               (fun v => inspectThread inspect ("/" ++ g ++ "/" ++ v))).getLast?).map
                 (fun r => r.2.2)).getD [])) := by
    unfold listGroupBody
    rw [if_neg (by omega), if_neg (by simp)]
    simp only [hm]
    rw [if_neg (by simp only [not_and]; intro hgl; exact absurd hgl hg)]
    rw [if_pos ⟨trivial, hlen⟩]
  refine ⟨(listGroupFilter table g).1.map
      (fun v => inspectThread inspect ("/" ++ g ++ "/" ++ v)),
    ((((listGroupFilter table g).1.map
        (fun v => inspectThread inspect ("/" ++ g ++ "/" ++ v))).getLast?).map
          (fun r => r.2.2)).getD [], ?_, ?_, ?_, ?_⟩
  · unfold listGroup
    rw [hbody]
  · rw [List.length_map]
  · intro v hv2 e herr
    refine List.mem_map.mpr ⟨v, hv2, ?_⟩
    unfold inspectThread
    rw [herr]
  · intro v hv2 r hok
    refine List.mem_map.mpr ⟨v, hv2, ?_⟩
    unfold inspectThread
    rw [hok]

/-- Witness for C8: three variables `a`, `b`, `c` in group `g`; inspecting
`/g/b` fails with a parse error while the other two succeed. -/
theorem listGroup_partial_failure_witness :
    0 < ("/g" : String).length
    ∧ massageGroup "/g" = some "g"
    ∧ ("g" : String).length ≠ 0
    ∧ (listGroupFilter [("g/a", false), ("g/b", false), ("g/c", false)] "g").1 ≠ []
    ∧ (∃ entries lastA,
      listGroup [("g/a", false), ("g/b", false), ("g/c", false)] false
          (fun s => if s = "/g/b" then Except.error "bad parse"
                    else Except.ok ([("dtype", "f64")], [])) "/g" true
        = .ok (.inspected entries, .clobbered lastA)
      ∧ entries.length
          = (listGroupFilter [("g/a", false), ("g/b", false), ("g/c", false)] "g").1.length
      ∧ (∀ v ∈ (listGroupFilter [("g/a", false), ("g/b", false), ("g/c", false)] "g").1, ∀ e,
          (if ("/" ++ "g" ++ "/" ++ v : String) = "/g/b" then Except.error "bad parse"
           else Except.ok ([("dtype", "f64")], [])
             : Except String (List (String × String) × List (String × String)))
            = Except.error e →
          ("/" ++ "g" ++ "/" ++ v,
            (([], []) : List (String × String) × List (String × String))) ∈ entries)
      ∧ (∀ v ∈ (listGroupFilter [("g/a", false), ("g/b", false), ("g/c", false)] "g").1, ∀ r,
          (if ("/" ++ "g" ++ "/" ++ v : String) = "/g/b" then Except.error "bad parse"
           else Except.ok ([("dtype", "f64")], [])
             : Except String (List (String × String) × List (String × String)))
            = Except.ok r →
          ("/" ++ "g" ++ "/" ++ v, r) ∈ entries)) :=
  ⟨by decide, by decide, by decide, by decide,
   listGroup_partial_failure [("g/a", false), ("g/b", false), ("g/c", false)]
     (fun s => if s = "/g/b" then Except.error "bad parse"
               else Except.ok ([("dtype", "f64")], []))
     "/g" "g" (by decide) (by decide) (by decide) (by decide)⟩

/-- C9 (code bug): at line 198 the loop `variable, metadata, attributes =
future.result()` rebinds the name `attributes`, so with `w_inspect=true` the
second component `listGroup` returns is the `attributes` dict of the last
completed inspect task — not the group's attribute-name set, which the same
call returns when `w_inspect=false`.  Here the group has attribute set
`{attr}`, yet the `w_inspect` call returns the inspected variable's
attribute dict `[("x", "1")]` as its second component. -/
theorem listGroup_inspect_clobbers_attributes :
    listGroup [("g/a", false), ("g/attr", true)] false
        (fun _ => Except.ok ([("dtype", "f64")], [("x", "1")])) "/g" false
      = .ok (.names ["a"], .names ["attr"])
    ∧ listGroup [("g/a", false), ("g/attr", true)] false
        (fun _ => Except.ok ([("dtype", "f64")], [("x", "1")])) "/g" true
      = .ok (.inspected [("/g/a", ([("dtype", "f64")], [("x", "1")]))],
             .clobbered [("x", "1")]) := by
  constructor
  · decide
  · decide

end H5
